import Mathlib

/-!
# The random-number engine and the well-mixed topology of `ealib`

A shallow embedding of `ea::rng<Engine>` (`ealib/libea/include/ea/rng.h`), of
`ea::well_mixed<EA>` (`ealib/libea/include/ea/artificial_life/topology.h`), of `ea::isa`
(`ealib/libea/include/ea/artificial_life/isa.h`), of `nn::layout_ctrnn`
(`ealib/libfn/include/fn/nn/layout.h`) and of `games::ocr_game` (`ocr_game.h`).

Conventions of the embedding:

* `int` is `Int`, `std::size_t` and `unsigned int` are `Nat`, `double` is `ℚ`;
  a value is always one its C++ type can hold.  The argument of `rng::p`, whose
  assertion tells a NaN from a number, is a `double`: a number, an infinity or a NaN.
* An iterator into a range `[first, last)` is its offset from `first`, a `Nat`.
* The class template parameter `Engine` and the Boost distributions that `rng`
  drives with it are a parameter of the development, the structure `Engine`.
* A member function that reads and advances the engine takes the state and
  returns the new one.  `none` means that the call does not return a value:
  an assertion fails, an iterator leaves its range, or a loop does not finish
  within the given number of iterations (its `fuel`).
-/

namespace ea

/-! ## The engine parameter -/

/-- The template parameter `Engine` of `rng`, with what `rng` asks of it and of Boost:
seeding, one draw of each distribution bound to the engine through a
`boost::variate_generator<engine_type&, Dist>`, and the text form of the state. -/
structure Engine where
  /-- The internal state of the generator. -/
  State : Type
  /-- The state after `_eng.seed(s)`. -/
  seed : Nat → State
  /-- One draw of `uniform_int<>(a, b)` (closed range) and the advanced state. -/
  int_dist : Int → Int → State → Int × State
  /-- One draw of `uniform_real<>(a, b)` and the advanced state. -/
  real_dist : ℚ → ℚ → State → ℚ × State
  /-- One draw of `normal_distribution<>(mean, sigma)` and the advanced state. -/
  normal_dist : ℚ → ℚ → State → ℚ × State
  /-- The text written by `out << _eng`. -/
  write : State → String
  /-- The state of an engine after `in >> _eng` on the given text. -/
  read : String → State → State

/-- The contract of `boost::uniform_int<>`: a draw over the closed range `[a, b]`,
`a ≤ b`, lies in `[a, b]`. -/
def Engine.IntInRange (E : Engine) : Prop :=
  ∀ (a b : Int) (s : E.State), a ≤ b → a ≤ (E.int_dist a b s).1 ∧ (E.int_dist a b s).1 ≤ b

/-- The contract of `boost::uniform_real<>`: a draw over `[a, b)`, `a < b`, lies in
`[a, b)`. -/
def Engine.RealInRange (E : Engine) : Prop :=
  ∀ (a b : ℚ) (s : E.State), a < b → a ≤ (E.real_dist a b s).1 ∧ (E.real_dist a b s).1 < b

/-- The contract of the engine's stream operators: reading back what was written
restores the written state, whatever the reading engine held before. -/
def Engine.ReadsBack (E : Engine) : Prop :=
  ∀ (s s0 : E.State), E.read (E.write s) s0 = s

/-! ## `rng` -/

/-- The type `int_rng_type`: a uniform integer distribution bound to the engine. -/
abbrev int_rng_type (E : Engine) := E.State → Int × E.State

/-- The type `real_rng_type`: a uniform real distribution bound to the engine. -/
abbrev real_rng_type (E : Engine) := E.State → ℚ × E.State

/-- The constructor of `boost::uniform_int<>`, which asserts `min ≤ max`. -/
def uniform_int_dist (E : Engine) (min max : Int) : Option (int_rng_type E) :=
  if min ≤ max then some (E.int_dist min max) else none

/-- The constructor of `boost::uniform_real<>`, which asserts `min ≤ max`. -/
def uniform_real_dist (E : Engine) (min max : ℚ) : Option (real_rng_type E) :=
  if min ≤ max then some (E.real_dist min max) else none

/-- The data members of `rng`: the engine `_eng` and the two cached generators `_p` and
`_bit`.  A cached generator refers to `_eng` and owns its distribution, so it is kept as
the bounds of that distribution; `none` is the null `scoped_ptr`. -/
structure rng (E : Engine) where
  _eng : E.State
  _p : Option (ℚ × ℚ)
  _bit : Option (Int × Int)

variable {E : Engine}

/-- The method `rng::reset(s)`; `now` is the value of `std::time(0)` at the call. -/
def rng.reset (r : rng E) (s : Nat) (now : Nat) : rng E :=
  let s := if s = 0 then now % 2 ^ 32 else s
  { r with _eng := E.seed s, _p := some (0, 1), _bit := some (0, 1) }

/-- The state of an `rng` whose members are not yet set (before the constructor body). -/
def rng.raw (E : Engine) : rng E :=
  { _eng := E.seed 0, _p := none, _bit := none }

/-- The constructor `rng()`, which seeds from the clock. -/
def rng.ctor (E : Engine) (now : Nat) : rng E :=
  (rng.raw E).reset (now % 2 ^ 32) now

/-- The constructor `rng(s)`. -/
def rng.ctor_seed (E : Engine) (s : Nat) (now : Nat) : rng E :=
  (rng.raw E).reset s now

/-- The method `rng::uniform_integer_rng(min, max)`: a generator over `[min, max)`, built
as Boost's closed range `[min, max - 1]`. -/
def uniform_integer_rng (E : Engine) (min max : Int) : Option (int_rng_type E) :=
  uniform_int_dist E min (max - 1)

/-- The method `rng::uniform_integer(min, max)`. -/
def uniform_integer (E : Engine) (min max : Int) (s : E.State) : Option (Int × E.State) :=
  match uniform_integer_rng E min max with
  | none => none
  | some irng => some (irng s)

/-- The method `rng::operator()(n)`: a number in `[0, n)`. -/
def call (E : Engine) (n : Int) (s : E.State) : Option (Int × E.State) :=
  match uniform_integer_rng E 0 n with
  | none => none
  | some irng => some (irng s)

/-- A value of the C++ type `double` with its special values: a finite number, one of
the two infinities, or a NaN. -/
inductive double where
  | val (x : ℚ)
  | pos_inf
  | neg_inf
  | nan
  deriving DecidableEq

/-- The comparison `a < b` of two `double`s: false as soon as one of them is a NaN. -/
def double.lt : double → double → Bool
  | .val x, .val y => decide (x < y)
  | .val _, .pos_inf => true
  | .val _, .neg_inf => false
  | .val _, .nan => false
  | .pos_inf, _ => false
  | .neg_inf, .val _ => true
  | .neg_inf, .pos_inf => true
  | .neg_inf, .neg_inf => false
  | .neg_inf, .nan => false
  | .nan, _ => false

/-- The comparison `a <= b` of two `double`s: false as soon as one of them is a NaN. -/
def double.le : double → double → Bool
  | .val x, .val y => decide (x ≤ y)
  | .val _, .pos_inf => true
  | .val _, .neg_inf => false
  | .val _, .nan => false
  | .pos_inf, .val _ => false
  | .pos_inf, .pos_inf => true
  | .pos_inf, .neg_inf => false
  | .pos_inf, .nan => false
  | .neg_inf, .val _ => true
  | .neg_inf, .pos_inf => true
  | .neg_inf, .neg_inf => true
  | .neg_inf, .nan => false
  | .nan, _ => false

/-- The comparison `a > b` of two `double`s, which is `b < a`. -/
def double.gt (a b : double) : Bool := double.lt b a

/-- The comparison `a >= b` of two `double`s, which is `b <= a`. -/
def double.ge (a b : double) : Bool := double.le b a

/-- The method `rng::p(prob)`: asserts `(prob >= 0.0) && (prob <= 1.0)`, then compares a
draw of the cached generator `_p` with `prob`. -/
def rng.p (r : rng E) (prob : double) : Option (Bool × rng E) :=
  if prob.ge (.val 0) && prob.le (.val 1) then
    match r._p with
    | none => none
    | some (lo, hi) =>
      let (u, s) := E.real_dist lo hi r._eng
      some ((double.val u).lt prob, { r with _eng := s })
  else none

/-- The method `rng::bit()`: a draw of the cached generator `_bit`, converted to `bool`. -/
def rng.bit (r : rng E) : Option (Bool × rng E) :=
  match r._bit with
  | none => none
  | some (lo, hi) =>
    let (b, s) := E.int_dist lo hi r._eng
    some (decide (b ≠ 0), { r with _eng := s })

/-- The method `rng::uniform_real_rng(min, max)`. -/
def uniform_real_rng (E : Engine) (min max : ℚ) : Option (real_rng_type E) :=
  uniform_real_dist E min max

/-- The method `rng::uniform_real(min, max)`. -/
def uniform_real (E : Engine) (min max : ℚ) (s : E.State) : Option (ℚ × E.State) :=
  match uniform_real_rng E min max with
  | none => none
  | some rrng => some (rrng s)

/-- The loop of `rng::uniform_real_nz`: redraw while `r == 0.0`. -/
def uniform_real_nz_loop (E : Engine) (min max : ℚ) : Nat → ℚ → E.State → Option (ℚ × E.State)
  | 0, r, s => if r = 0 then none else some (r, s)
  | fuel + 1, r, s =>
    if r = 0 then
      match uniform_real E min max s with
      | none => none
      | some (r, s) => uniform_real_nz_loop E min max fuel r s
    else some (r, s)

/-- The method `rng::uniform_real_nz(min, max)`. -/
def uniform_real_nz (E : Engine) (fuel : Nat) (min max : ℚ) (s : E.State) :
    Option (ℚ × E.State) :=
  match uniform_real E min max s with
  | none => none
  | some (r, s) => uniform_real_nz_loop E min max fuel r s

/-- The method `rng::normal_real(mean, variance)`: one draw of a fresh
`normal_distribution<>(mean, variance)`, whose constructor asserts that its second
argument is not negative. -/
def normal_real (E : Engine) (mean variance : ℚ) (s : E.State) : Option (ℚ × E.State) :=
  if 0 ≤ variance then some (E.normal_dist mean variance s) else none

/-- The conversion `static_cast<int>(x)` of a `double`: the fractional part is dropped. -/
def to_int (x : ℚ) : Int :=
  if 0 ≤ x then ⌊x⌋ else ⌈x⌉

/-- The method `rng::normal_int(mean, variance)`. -/
def normal_int (E : Engine) (mean variance : Int) (s : E.State) : Option (Int × E.State) :=
  match normal_real E (mean : ℚ) (variance : ℚ) s with
  | none => none
  | some (x, s) => some (to_int (x + 1 / 2), s)

/-- The value `std::numeric_limits<int>::min()`. -/
def INT_MIN : Int := -2 ^ 31

/-- The value `std::numeric_limits<int>::max()`. -/
def INT_MAX : Int := 2 ^ 31 - 1

/-- The method `rng::uniform_integer()` without arguments. -/
def uniform_integer0 (E : Engine) (s : E.State) : Option (Int × E.State) :=
  uniform_integer E INT_MIN INT_MAX s

/-- The loop of `rng::generate`: `v` is the `std::set<int>` of the numbers written so far,
the result is the list of the numbers written to `oi` from here on. -/
def generate_loop (E : Engine) (n : Nat) (min max : Int) :
    Nat → Finset Int → E.State → Option (List Int × E.State)
  | 0, v, s => if v.card < n then none else some ([], s)
  | fuel + 1, v, s =>
    if v.card < n then
      match uniform_integer E min max s with
      | none => none
      | some (i, s) =>
        if i ∉ v then
          match generate_loop E n min max fuel (insert i v) s with
          | none => none
          | some (out, s) => some (i :: out, s)
        else generate_loop E n min max fuel v s
    else some ([], s)

/-- The method `rng::generate(n, min, max, oi)`; the result is what was written to `oi`. -/
def generate (E : Engine) (fuel : Nat) (n : Nat) (min max : Int) (s : E.State) :
    Option (List Int × E.State) :=
  generate_loop E n min max fuel ∅ s

/-- The loop `while(one == two) two = irng();` of `choose_two` and `choose_two_range`. -/
def redraw_loop (E : Engine) (irng : int_rng_type E) (one : Int) :
    Nat → Int → E.State → Option (Int × E.State)
  | 0, two, s => if one = two then none else some (two, s)
  | fuel + 1, two, s =>
    if one = two then
      let (two, s) := irng s
      redraw_loop E irng one fuel two s
    else some (two, s)

/-- The method `rng::choose_two(min, max)` at `T = int`. -/
def choose_two (E : Engine) (fuel : Nat) (min max : Int) (s : E.State) :
    Option ((Int × Int) × E.State) :=
  match uniform_integer_rng E min max with
  | none => none
  | some irng =>
    let (one, s) := irng s
    let (two, s) := irng s
    match redraw_loop E irng one fuel two s with
    | none => none
    | some (two, s) =>
      if one > two then some ((two, one), s) else some ((one, two), s)

/-- The call `std::advance(it, k)` on an iterator at the start of a range of `len`
elements: the offset reached, which has to stay within `[0, len]`. -/
def advance (len : Nat) (k : Int) : Option Nat :=
  if 0 ≤ k ∧ k ≤ len then some k.toNat else none

/-- The method `rng::choose_two_range(f, l)` on a range of `len` elements; the two
iterators `f + one` and `f + two` are returned as offsets from `f`. -/
def choose_two_range (E : Engine) (fuel : Nat) (len : Nat) (s : E.State) :
    Option ((Nat × Nat) × E.State) :=
  match uniform_integer_rng E 0 len with
  | none => none
  | some irng =>
    let (one, s) := irng s
    let (two, s) := irng s
    match redraw_loop E irng one fuel two s with
    | none => none
    | some (two, s) =>
      match advance len one, advance len two with
      | some a, some b => some ((a, b), s)
      | _, _ => none

/-- Modelled from the spec: the helpers `iota` of `ea/algorithm.h`, which is not among
the sources.  They fill a range with successive values ("the tracker is lazily
initialized to track every position"): `iota n v` is the content of a range of `n`
elements after `iota(begin, end, v)`. -/
def iota (n : Nat) (v : Nat) : List Nat :=
  List.range' v n

/-- Modelled from the spec: the two-argument `algorithm::iota(begin, end)` of
`ea/algorithm.h`, which counts from zero. -/
def algorithm.iota (n : Nat) : List Nat :=
  ea.iota n 0

/-- The loop of `rng::sample_with_replacement`. -/
def sample_with_replacement_loop (E : Engine) {α : Type} (xs : List α) (irng : int_rng_type E) :
    Nat → E.State → Option (List α × E.State)
  | 0, s => some ([], s)
  | n + 1, s =>
    let (k, s) := irng s
    match advance xs.length k with
    | none => none
    | some t =>
      match xs[t]? with
      | none => none
      | some x =>
        match sample_with_replacement_loop E xs irng n s with
        | none => none
        | some (out, s) => some (x :: out, s)

/-- The method `rng::sample_with_replacement(first, last, output, n)`; `xs` is the range
`[first, last)` and the result is what was written to `output`. -/
def sample_with_replacement (E : Engine) {α : Type} (xs : List α) (n : Nat) (s : E.State) :
    Option (List α × E.State) :=
  match uniform_integer_rng E 0 xs.length with
  | none => none
  | some irng => sample_with_replacement_loop E xs irng n s

/-- The loop of `rng::sample_without_replacement`; `replace` is the vector of the source
positions not drawn yet. -/
def sample_without_replacement_loop (E : Engine) {α : Type} (xs : List α) :
    Nat → List Nat → E.State → Option (List α × E.State)
  | 0, _, s => some ([], s)
  | n + 1, replace, s =>
    match uniform_integer E 0 replace.length s with
    | none => none
    | some (k, s) =>
      match advance replace.length k with
      | none => none
      | some i =>
        match replace[i]? with
        | none => none
        | some src =>
          match advance xs.length src with
          | none => none
          | some t =>
            match xs[t]? with
            | none => none
            | some x =>
              match sample_without_replacement_loop E xs n (replace.eraseIdx i) s with
              | none => none
              | some (out, s) => some (x :: out, s)

/-- The method `rng::sample_without_replacement(first, last, output, n)`; `xs` is the
range `[first, last)` and the result is what was written to `output`. -/
def sample_without_replacement (E : Engine) {α : Type} (xs : List α) (n : Nat) (s : E.State) :
    Option (List α × E.State) :=
  sample_without_replacement_loop E xs n (algorithm.iota xs.length) s

/-- The method `rng::choice(first, last)` on a range of `len` elements. -/
def choice (E : Engine) (len : Nat) (s : E.State) : Option (Nat × E.State) :=
  match uniform_integer E 0 len s with
  | none => none
  | some (k, s) =>
    match advance len k with
    | none => none
    | some pos => some (pos, s)

/-- The method `rng::choice(first, last, rm)` on a range of `len` elements: the position
returned, the replacement map after the call, and the engine state. -/
def choice_rm (E : Engine) (len : Nat) (rm : List Nat) (s : E.State) :
    Option (Nat × List Nat × E.State) :=
  let rm := if rm.isEmpty then iota len 0 else rm
  match uniform_integer E 0 rm.length s with
  | none => none
  | some (k, s) =>
    match advance rm.length k with
    | none => none
    | some i =>
      match rm[i]? with
      | none => none
      | some src =>
        match advance len src with
        | none => none
        | some pos => some (pos, rm.eraseIdx i, s)

/-- The method `rng::save`: the archived string `state`. -/
def rng.save (r : rng E) : String :=
  E.write r._eng

/-- The method `rng::load`: only `_eng` is read back. -/
def rng.load (r : rng E) (state : String) : rng E :=
  { r with _eng := E.read state r._eng }

/-- A member function that uses `_eng` only, as a function on the whole object. -/
def rng.on_eng {β : Type} (f : E.State → Option (β × E.State)) (r : rng E) :
    Option (β × rng E) :=
  match f r._eng with
  | none => none
  | some (b, s) => some (b, { r with _eng := s })

/-! ## Sequences of calls -/

/-- A call of a public member function of `rng`, with its arguments. -/
inductive Op (α : Type) where
  | call (n : Int)
  | p (prob : double)
  | bit
  | uniform_real (min max : ℚ)
  | uniform_real_nz (min max : ℚ)
  | normal_real (mean variance : ℚ)
  | uniform_integer (min max : Int)
  | uniform_integer0
  | generate (n : Nat) (min max : Int)
  | normal_int (mean variance : Int)
  | choose_two (min max : Int)
  | choose_two_range (len : Nat)
  | sample_with_replacement (xs : List α) (n : Nat)
  | sample_without_replacement (xs : List α) (n : Nat)
  | choice (len : Nat)
  | choice_rm (len : Nat) (rm : List Nat)

/-- What a call hands back to its caller. -/
inductive Result (α : Type) where
  | int (i : Int)
  | bool (b : Bool)
  | real (x : ℚ)
  | ints (out : List Int)
  | int_pair (r : Int × Int)
  | pos (i : Nat)
  | pos_pair (r : Nat × Nat)
  | elems (out : List α)
  | pos_rm (i : Nat) (rm : List Nat)
  deriving DecidableEq

/-- One call on the object `r`: its result and the object after it. -/
def exec {α : Type} (fuel : Nat) (r : rng E) : Op α → Option (Result α × rng E)
  | .call n => r.on_eng fun s => (call E n s).map fun x => (.int x.1, x.2)
  | .p prob => (r.p prob).map fun x => (.bool x.1, x.2)
  | .bit => r.bit.map fun x => (.bool x.1, x.2)
  | .uniform_real a b => r.on_eng fun s => (uniform_real E a b s).map fun x => (.real x.1, x.2)
  | .uniform_real_nz a b =>
    r.on_eng fun s => (uniform_real_nz E fuel a b s).map fun x => (.real x.1, x.2)
  | .normal_real m v => r.on_eng fun s => (normal_real E m v s).map fun x => (.real x.1, x.2)
  | .uniform_integer a b =>
    r.on_eng fun s => (uniform_integer E a b s).map fun x => (.int x.1, x.2)
  | .uniform_integer0 => r.on_eng fun s => (uniform_integer0 E s).map fun x => (.int x.1, x.2)
  | .generate n a b => r.on_eng fun s => (generate E fuel n a b s).map fun x => (.ints x.1, x.2)
  | .normal_int m v => r.on_eng fun s => (normal_int E m v s).map fun x => (.int x.1, x.2)
  | .choose_two a b =>
    r.on_eng fun s => (choose_two E fuel a b s).map fun x => (.int_pair x.1, x.2)
  | .choose_two_range len =>
    r.on_eng fun s => (choose_two_range E fuel len s).map fun x => (.pos_pair x.1, x.2)
  | .sample_with_replacement xs n =>
    r.on_eng fun s => (sample_with_replacement E xs n s).map fun x => (.elems x.1, x.2)
  | .sample_without_replacement xs n =>
    r.on_eng fun s => (sample_without_replacement E xs n s).map fun x => (.elems x.1, x.2)
  | .choice len => r.on_eng fun s => (choice E len s).map fun x => (.pos x.1, x.2)
  | .choice_rm len rm =>
    r.on_eng fun s => (choice_rm E len rm s).map fun x => (.pos_rm x.1 x.2.1, x.2.2)

/-- A sequence of calls on one object: the result of each call, in order.  A call that
does not return ends the run, recorded as `none`. -/
def run {α : Type} (fuel : Nat) : List (Op α) → rng E → List (Option (Result α))
  | [], _ => []
  | op :: ops, r =>
    match exec fuel r op with
    | none => [none]
    | some (x, r) => some x :: run fuel ops r

/-- The caller of C4 and C5: `k` successive calls `choice(first, last, rm)` on a range of
`len` elements with one replacement map; the positions returned, in order, the map after
the last call, and the engine state. -/
def choices (E : Engine) (len : Nat) : Nat → List Nat → E.State →
    Option (List Nat × List Nat × E.State)
  | 0, rm, s => some ([], rm, s)
  | k + 1, rm, s =>
    match choice_rm E len rm s with
    | none => none
    | some (pos, rm, s) =>
      match choices E len k rm s with
      | none => none
      | some (ps, rm, s) => some (pos :: ps, rm, s)

/-- The stream of draws that successive calls `uniform_integer(min, max)` see from the
state `s`: its first `k` values. -/
def draws (E : Engine) (min max : Int) : Nat → E.State → List Int
  | 0, _ => []
  | k + 1, s =>
    match uniform_integer E min max s with
    | none => []
    | some (i, s) => i :: draws E min max k s

/-- A list of draws in the order in which its values were first drawn: a value that is in
`seen` or occurred earlier in the list is left out. -/
def first_drawn (seen : Finset Int) : List Int → List Int
  | [] => []
  | i :: l => if i ∈ seen then first_drawn seen l else i :: first_drawn (insert i seen) l

/-- The objects a program can hold: built by a constructor, then reset, used and
loaded any number of times. -/
inductive Reachable : rng E → Prop where
  | ctor (now : Nat) : Reachable (rng.ctor E now)
  | ctor_seed (s now : Nat) : Reachable (rng.ctor_seed E s now)
  | reset {r : rng E} (s now : Nat) : Reachable r → Reachable (r.reset s now)
  | load {r : rng E} (state : String) : Reachable r → Reachable (r.load state)
  | exec {α : Type} {r r1 : rng E} {fuel : Nat} {op : Op α} {x : Result α} :
      Reachable r → exec fuel r op = some (x, r1) → Reachable r1

/-! ## The well-mixed topology -/

/-- The type `individual_ptr_type`: a pointer to an individual, null (`none`) or the
address of one. -/
abbrev individual_ptr_type := Option Nat

/-- The struct `well_mixed::location_type`. -/
structure location_type where
  idx : Nat
  p : individual_ptr_type
  deriving DecidableEq

/-- The struct `well_mixed`: the list `_locs` of all locations. -/
structure well_mixed where
  _locs : List location_type
  deriving DecidableEq

/-- The method `well_mixed::replace(l, p, al)`.  The individuals are given by the value of
the `alive()` flag at each address; the result is the location `l` and the flags after
the call. -/
def well_mixed.replace (l : location_type) (p : individual_ptr_type) (alive : Nat → Bool) :
    location_type × (Nat → Bool) :=
  let alive := match l.p with
    | some q => Function.update alive q false
    | none => alive
  ({ l with p := p }, alive)

/-- The call `replace(l, p, al)` where `l` is the location `_locs[i]` of the topology. -/
def well_mixed.replace_at (t : well_mixed) (i : Nat) (p : individual_ptr_type)
    (alive : Nat → Bool) : Option (well_mixed × (Nat → Bool)) :=
  match t._locs[i]? with
  | none => none
  | some l => some ({ _locs := t._locs.set i (replace l p alive).1 }, (replace l p alive).2)

/-- The call `std::vector<location_type>::resize(n)`: the first `n` elements stay as
they are, and a vector shorter than `n` is filled up with value-initialised locations
(`idx` zero, `p` null). -/
def resize (locs : List location_type) (n : Nat) : List location_type :=
  locs.take n ++ List.replicate (n - locs.length) ⟨0, none⟩

/-- The method `well_mixed::initialize(ea)`; `population_size` is the value of
`get<POPULATION_SIZE>(ea)`. -/
def well_mixed.initialize (t : well_mixed) (population_size : Nat) : well_mixed :=
  { t with _locs := resize t._locs population_size }

/-- The struct `well_mixed::iterator`: the count `_n`.  Its members `_locs` and `_ea` are
references to the locations of the topology and to the EA; `dereference` is given what
they refer to at the time of the call. -/
structure well_mixed.iterator where
  _n : Nat
  deriving DecidableEq

/-- The method `iterator::increment()`. -/
def well_mixed.iterator.increment (it : well_mixed.iterator) : well_mixed.iterator :=
  { it with _n := it._n + 1 }

/-- The method `iterator::equal(that)`. -/
def well_mixed.iterator.equal (it that : well_mixed.iterator) : Bool :=
  decide (it._n = that._n)

/-- The method `iterator::dereference()`: `*_ea.rng().choice(_locs.begin(), _locs.end())`.
The location referred to is returned as its position in `_locs`; `ea` is the engine of
`_ea.rng()`. -/
def well_mixed.iterator.dereference (E : Engine) (_it : well_mixed.iterator) (t : well_mixed)
    (ea : E.State) : Option (Nat × E.State) :=
  match choice E t._locs.length ea with
  | none => none
  | some (pos, ea) => if pos < t._locs.length then some (pos, ea) else none

/-- The method `well_mixed::neighborhood(p, ea)`: the pair of iterators; the topology and
the engine of the EA, which the method could write to, come back as they were. -/
def well_mixed.neighborhood (E : Engine) (t : well_mixed) (_p : individual_ptr_type)
    (ea : E.State) : (well_mixed.iterator × well_mixed.iterator) × well_mixed × E.State :=
  ((⟨0⟩, ⟨t._locs.length⟩), t, ea)

/-- The caller of C11: the loop `for(; first != last; ++first) use(*first);` over an
iterator pair; the positions dereferenced, in order, and the engine afterwards. -/
def walk (E : Engine) (t : well_mixed) :
    Nat → well_mixed.iterator → well_mixed.iterator → E.State → Option (List Nat × E.State)
  | 0, first, last, ea => if first.equal last then some ([], ea) else none
  | fuel + 1, first, last, ea =>
    if first.equal last then some ([], ea)
    else
      match first.dereference E t ea with
      | none => none
      | some (pos, ea) =>
        match walk E t fuel first.increment last ea with
        | none => none
        | some (out, ea) => some (pos :: out, ea)

/-- What a caller can do with a stream position. -/
inductive stream_op where
  | increment
  | dereference
  deriving DecidableEq

/-- The caller of C12: a sequence of increments and dereferences of one stream position;
the positions dereferenced, in order, the stream position and the engine afterwards. -/
def stream_run (E : Engine) (t : well_mixed) :
    List stream_op → well_mixed.iterator → E.State →
      Option (List Nat × well_mixed.iterator × E.State)
  | [], it, ea => some ([], it, ea)
  | .increment :: ops, it, ea => stream_run E t ops it.increment ea
  | .dereference :: ops, it, ea =>
    match it.dereference E t ea with
    | none => none
    | some (pos, ea) =>
      match stream_run E t ops it ea with
      | none => none
      | some (out, it, ea) => some (pos :: out, it, ea)

/-- The yardstick of C12: `k` successive calls `rng.choice(first, last)` on a range of
`len` elements; the positions returned, in order, and the engine afterwards. -/
def choice_calls (E : Engine) (len : Nat) : Nat → E.State → Option (List Nat × E.State)
  | 0, s => some ([], s)
  | k + 1, s =>
    match choice E len s with
    | none => none
    | some (pos, s) =>
      match choice_calls E len k s with
      | none => none
      | some (ps, s) => some (pos :: ps, s)

/-! ## The instruction dispatcher -/

/-- The instruction class templates that `isa.h` names; they are declared in
`ea/artificial_life/instructions.h`.  A value stands for a handler object of that class. -/
inductive Instruction where
  | inst_nop_a
  | inst_nop_b
  | inst_nop_c
  | inst_nop_x
  | inst_mov_head
  | inst_if_label
  | inst_h_search
  | inst_nand
  | inst_input
  | inst_output
  | inst_repro
  deriving DecidableEq

/-- Modelled from the spec: the member `is_nop()` of the instruction classes of
`ea/artificial_life/instructions.h`, which is not among the sources.  "The four
no-operation variants" are the modifiers, the other seven instructions are not. -/
def Instruction.is_nop : Instruction → Bool
  | .inst_nop_a => true
  | .inst_nop_b => true
  | .inst_nop_c => true
  | .inst_nop_x => true
  | _ => false

/-- The data member of `isa`: the vector `_isa` of handlers. -/
structure isa where
  _isa : List Instruction
  deriving DecidableEq

/-- The method `isa::append<Instruction>()`. -/
def isa.append (t : isa) (i : Instruction) : isa :=
  { t with _isa := t._isa ++ [i] }

/-- The constructor `isa()`. -/
def isa.ctor : isa :=
  ((((((((((({ _isa := [] } : isa).append .inst_nop_a).append .inst_nop_b).append
    .inst_nop_c).append .inst_nop_x).append .inst_mov_head).append .inst_if_label).append
    .inst_h_search).append .inst_nand).append .inst_input).append .inst_output).append
    .inst_repro

/-- How a call on the dispatcher ends: it returns a value, it reports an out-of-range
error, or it indexes the vector `_isa` beyond its end, where `operator[]` is undefined. -/
inductive Outcome (α : Type) where
  | returns (a : α)
  | out_of_range
  | undefined
  deriving DecidableEq

/-- The method `isa::operator()(inst, hw, p, al)`.  The handlers' `operator()` is a
parameter, `handler`: the boolean a handler returns and what it leaves in `hw` and
`al`. -/
def isa.call {HW AL : Type}
    (handler : Instruction → HW → individual_ptr_type → AL → Bool × HW × AL)
    (t : isa) (inst : Nat) (hw : HW) (p : individual_ptr_type) (al : AL) :
    Outcome (Bool × HW × AL) :=
  match t._isa[inst]? with
  | some h => .returns (handler h hw p al)
  | none => .undefined

/-- The method `isa::is_nop(inst)`. -/
def isa.is_nop (t : isa) (inst : Nat) : Outcome Bool :=
  match t._isa[inst]? with
  | some h => .returns h.is_nop
  | none => .undefined

end ea

/-! ## The layout of a neural network -/

namespace nn

/-- The template parameter `NeuralNetwork` of `layout_ctrnn`, with what the function asks
of it: the three ways to add a neuron, each returning the descriptor of the new vertex,
and `link`. -/
structure NeuralNetwork where
  /-- The network object `nn`. -/
  State : Type
  /-- The type `NeuralNetwork::vertex_descriptor`. -/
  vertex_descriptor : Type
  /-- The call `nn.add_input_neuron()`. -/
  add_input_neuron : State → vertex_descriptor × State
  /-- The call `nn.add_hidden_neuron()`. -/
  add_hidden_neuron : State → vertex_descriptor × State
  /-- The call `nn.add_output_neuron()`. -/
  add_output_neuron : State → vertex_descriptor × State
  /-- The call `nn.link(a, b)`. -/
  link : vertex_descriptor → vertex_descriptor → State → State

/-- A loop `for(i=0; i<n; ++i) neurons.push_back(nn.add())` of `layout_ctrnn`, where `add`
is one of the three ways to add a neuron. -/
def add_neurons (N : NeuralNetwork) (add : N.State → N.vertex_descriptor × N.State) :
    Nat → List N.vertex_descriptor → N.State → List N.vertex_descriptor × N.State
  | 0, neurons, nn => (neurons, nn)
  | n + 1, neurons, nn => add_neurons N add n (neurons ++ [(add nn).1]) (add nn).2

/-- The body of the inner loop of `layout_ctrnn`: `if(i!=j) nn.link(neurons[i], neurons[j])`. -/
def link_pair (N : NeuralNetwork) (neurons : List N.vertex_descriptor) (i j : Nat)
    (nn : N.State) : N.State :=
  if i ≠ j then
    match neurons[i]?, neurons[j]? with
    | some a, some b => N.link a b nn
    | _, _ => nn
  else nn

/-- The inner loop of `layout_ctrnn`, over `j`, for one `i`. -/
def link_from (N : NeuralNetwork) (neurons : List N.vertex_descriptor) (i : Nat)
    (nn : N.State) : N.State :=
  (List.range neurons.length).foldl (fun nn j => link_pair N neurons i j nn) nn

/-- The outer loop of `layout_ctrnn`, over `i`. -/
def link_all (N : NeuralNetwork) (neurons : List N.vertex_descriptor) (nn : N.State) :
    N.State :=
  (List.range neurons.length).foldl (fun nn i => link_from N neurons i nn) nn

/-- The function `nn::layout_ctrnn(nn, nin, nout, nhid)`. -/
def layout_ctrnn (N : NeuralNetwork) (nn : N.State) (nin nout nhid : Nat) : N.State :=
  let r1 := add_neurons N N.add_input_neuron nin [] nn
  let r2 := add_neurons N N.add_hidden_neuron nhid r1.1 r1.2
  let r3 := add_neurons N N.add_output_neuron nout r2.1 r2.2
  link_all N r3.1 r3.2

/-- The calls of `link` that `layout_ctrnn` makes for `n` neurons whose descriptors
start at `k`: row by row, the ordered pairs of different positions. -/
def row (k n i : Nat) : List (Nat × Nat) :=
  ((List.range n).filter (fun j => i ≠ j)).map (fun j => (k + i, k + j))

/-- The three kinds of neuron that `layout_ctrnn` adds. -/
inductive neuron_kind where
  | input
  | hidden
  | output
  deriving DecidableEq

/-- The record that the network `logging` keeps: the kind of every neuron added, in the
order of the calls, and the arguments of every call of `link`, in the order of the
calls. -/
structure network_log where
  neurons : List neuron_kind
  links : List (Nat × Nat)
  deriving DecidableEq

/-- An instance of the network parameter that records what is done to it.  The
descriptor of a new vertex is the number of neurons added before it, so every call that
adds a neuron returns a descriptor not returned before. -/
@[reducible] def logging : NeuralNetwork where
  State := network_log
  vertex_descriptor := Nat
  add_input_neuron nn := (nn.neurons.length, { nn with neurons := nn.neurons ++ [.input] })
  add_hidden_neuron nn := (nn.neurons.length, { nn with neurons := nn.neurons ++ [.hidden] })
  add_output_neuron nn := (nn.neurons.length, { nn with neurons := nn.neurons ++ [.output] })
  link a b nn := { nn with links := nn.links ++ [(a, b)] }

end nn

/-! ## The OCR game -/

namespace games

/-- The enum `results::field`, without its end marker `LAST`. -/
inductive field where
  | P
  | N
  | TP
  | FP
  | TN
  | FN
  deriving DecidableEq

/-- The struct `ocr_game::results`: the indices `idx` of the images tested and the table
`roc`, `roc j f` being the counter `roc[j][f]`. -/
structure results where
  idx : List Nat
  roc : Nat → field → Int

/-- The constructor `results(n, g)`: the table is zeroed and `idx` receives the first `n`
values of the generator `g`, `g k` being the value of its call number `k`. -/
def results.ctor (n : Nat) (g : Nat → Nat) : results :=
  { idx := (List.range n).map g, roc := fun _ _ => 0 }

/-- The method `results::mean_tpr()`. -/
def results.mean_tpr (r : results) : ℚ :=
  (List.range 10).foldl
    (fun x i => if r.roc i .P > 0 then x + (r.roc i .TP : ℚ) / (r.roc i .P : ℚ) else x) 0 / 10

/-- The method `results::mean_tnr()`. -/
def results.mean_tnr (r : results) : ℚ :=
  (List.range 10).foldl
    (fun x i => if r.roc i .N > 0 then x + (r.roc i .TN : ℚ) / (r.roc i .N : ℚ) else x) 0 / 10

/-- The method `results::mean_fpr()`. -/
def results.mean_fpr (r : results) : ℚ :=
  (List.range 10).foldl
    (fun x i => if r.roc i .N > 0 then x + (r.roc i .FP : ℚ) / (r.roc i .N : ℚ) else x) 0 / 10

/-- The method `results::mean_fnr()`. -/
def results.mean_fnr (r : results) : ℚ :=
  (List.range 10).foldl
    (fun x i => if r.roc i .P > 0 then x + (r.roc i .FN : ℚ) / (r.roc i .P : ℚ) else x) 0 / 10

/-- The method `results::tpr(i)`. -/
def results.tpr (r : results) (i : Nat) : ℚ :=
  if r.roc i .P = 0 then 0 else (r.roc i .TP : ℚ) / (r.roc i .P : ℚ)

/-- The method `results::tnr(i)`. -/
def results.tnr (r : results) (i : Nat) : ℚ :=
  if r.roc i .N = 0 then 0 else (r.roc i .TN : ℚ) / (r.roc i .N : ℚ)

/-- The method `results::fpr(i)`. -/
def results.fpr (r : results) (i : Nat) : ℚ :=
  if r.roc i .P = 0 then 0 else (r.roc i .FP : ℚ) / (r.roc i .P : ℚ)

/-- The method `results::fnr(i)`. -/
def results.fnr (r : results) (i : Nat) : ℚ :=
  if r.roc i .N = 0 then 0 else (r.roc i .FN : ℚ) / (r.roc i .N : ℚ)

/-- The mean over the ten labels of a rate given label by label, the right-hand side of
C27. -/
def mean_of (rate : Nat → ℚ) : ℚ :=
  ((List.range 10).map rate).sum / 10

/-- The struct `ocr_game::labeled_image`. -/
structure labeled_image where
  label : Nat
  img : List Int

/-- The data members of `ocr_game`. -/
structure ocr_game where
  _width : Nat
  _nin : Nat
  _nout : Nat
  _idb : List labeled_image

/-- What `ocr_game::play` uses and `ocr_game.h` does not define: the network with the
random number generator handed to it, of which `play` calls `update_n`; the function
`ea::algorithm::vxor` on a range of outputs; and `ea::series_generator<std::size_t>`,
`series_generator init delta k` being the value of call number `k` of the generator
built with `(init, delta)`. -/
structure Collaborators where
  /-- The network `network` together with the generator `rng`. -/
  State : Type
  /-- The call `network.update_n(updates, inputs, outputs, rng)`: the outputs appended
  and the network and generator afterwards. -/
  update_n : Nat → List Int → State → List Int × State
  /-- The function `ea::algorithm::vxor(first, last)`. -/
  vxor : List Int → Int
  /-- The values of `ea::series_generator<std::size_t>(init, delta)`. -/
  series_generator : Nat → Nat → Nat → Nat

/-- The statement `++r.roc[j][f]`. -/
def bump (roc : Nat → field → Int) (j : Nat) (f : field) : Nat → field → Int :=
  fun j1 f1 => if j1 = j ∧ f1 = f then roc j1 f1 + 1 else roc j1 f1

/-- The body of the loop of `play` over the labels: the counters of row `j` that go up
for an image of label `label` when the outputs of label `j` give `is_on`. -/
def track (roc : Nat → field → Int) (j label : Nat) (is_on : Int) : Nat → field → Int :=
  if label = j then
    if is_on ≠ 0 then bump (bump roc j .P) j .TP else bump (bump roc j .P) j .FN
  else
    if is_on ≠ 0 then bump (bump roc j .N) j .FP else bump (bump roc j .N) j .TN

/-- The loop `for(j=0,k=0; k<outputs.size(); ++j,k+=_width)` of `play` for one image.
An index `j` beyond the ten rows of `roc` ends the call. -/
def roc_loop (C : Collaborators) (width : Nat) (outputs : List Int) (label : Nat) :
    Nat → Nat → Nat → (Nat → field → Int) → Option (Nat → field → Int)
  | 0, _, k, roc => if k < outputs.length then none else some roc
  | fuel + 1, j, k, roc =>
    if k < outputs.length then
      if 10 ≤ j then none
      else
        roc_loop C width outputs label fuel (j + 1) (k + width)
          (track roc j label (C.vxor ((outputs.drop k).take width)))
    else some roc

/-- The loop of `play` over `r.idx`.  The loop over the outputs of one image takes at most
`outputs.size()` steps when it ends at all, as `k` advances by `_width` in each. -/
def play_loop (C : Collaborators) (g : ocr_game) (updates : Nat) :
    List Nat → (Nat → field → Int) → C.State → Option ((Nat → field → Int) × C.State)
  | [], roc, s => some (roc, s)
  | i :: idx, roc, s =>
    match g._idb[i]? with
    | none => none
    | some li =>
      let (outputs, s) := C.update_n updates li.img s
      if outputs.length = g._nout ∧ g._nout = 10 * g._width then
        match roc_loop C g._width outputs li.label outputs.length 0 0 roc with
        | none => none
        | some roc => play_loop C g updates idx roc s
      else none

/-- The method `ocr_game::play(network, game_size, updates, rng)`. -/
def ocr_game.play (C : Collaborators) (g : ocr_game) (game_size updates : Nat) (s : C.State) :
    Option (results × C.State) :=
  let r := results.ctor game_size (C.series_generator 0 1)
  match play_loop C g updates r.idx r.roc s with
  | none => none
  | some (roc, s) => some ({ r with roc := roc }, s)

/-- An instance of the collaborators to run the game on: the network answers an image
with a one in each of the `2` outputs of the label that the first input names and zeros
elsewhere, `vxor` tells whether an output of the range is not zero, and the series
counts from `init` in steps of `delta`. -/
@[reducible] def demo : Collaborators where
  State := Unit
  update_n _ inputs s :=
    ((List.range 20).map (fun k => if (k / 2 : Nat) = (inputs.headD 0).toNat then 1 else 0), s)
  vxor l := if l.any (fun x => x ≠ 0) then 1 else 0
  series_generator init delta k := init + k * delta

/-- A game of output width `2` over three images of the labels `0`, `1` and `2`, whose
first inputs name the labels `1`, `0` and `2`. -/
def demo_game : ocr_game :=
  { _width := 2, _nin := 1, _nout := 20, _idb := [⟨0, [1]⟩, ⟨1, [0]⟩, ⟨2, [2]⟩] }

/-- The table that `play` fills for the three images of `demo_game` on `demo`: the rows
of the labels `0` and `1` hold a false negative and a false positive each, the row of
the label `2` a true positive. -/
def demo_table : results :=
  { idx := [0, 1, 2],
    roc := fun j f =>
      match j, f with
      | 0, .P => 1 | 0, .N => 2 | 0, .TP => 0 | 0, .FP => 1 | 0, .TN => 1 | 0, .FN => 1
      | 1, .P => 1 | 1, .N => 2 | 1, .TP => 0 | 1, .FP => 1 | 1, .TN => 1 | 1, .FN => 1
      | 2, .P => 1 | 2, .N => 2 | 2, .TP => 1 | 2, .FP => 0 | 2, .TN => 2 | 2, .FN => 0
      | _, .N => 3 | _, .TN => 3
      | _, _ => 0 }

end games

namespace ea

variable {E : Engine}

/-! ## An engine to run the model on -/

/-- One step of the multiplicative congruential generator with multiplier `48271` and
modulus `2^31 - 1`. -/
def lcg_next (x : Nat) : Nat :=
  48271 * x % 2147483647

/-- The decimal text of a state. -/
def lcg_write (x : Nat) : String :=
  String.mk ((Nat.digits 10 x).reverse.map Nat.digitChar)

/-- The state written as a decimal text. -/
def lcg_read (t : String) : Nat :=
  Nat.ofDigits 10 ((t.data.map fun c => c.toNat - 48).reverse)

/-- An instance of the engine parameter: a multiplicative congruential generator whose
draws are the generator's next value reduced to the range asked for. -/
@[reducible] def lcg : Engine where
  State := Nat
  seed s := if s % 2147483647 = 0 then 1 else s % 2147483647
  int_dist a b x := (a + (lcg_next x : Int) % (b - a + 1), lcg_next x)
  real_dist a b x := (a + (b - a) * ((lcg_next x : ℚ) / 2147483647), lcg_next x)
  normal_dist m sd x := (m + sd * (((lcg_next x % 13 : Nat) : ℚ) - 6) / 2, lcg_next x)
  write x := lcg_write x
  read t _ := lcg_read t

/-! # Theorems -/

/-! ## The congruential engine meets the contracts -/

theorem lcg_intInRange : lcg.IntInRange := by
  intro a b s hab
  have hpos : (0 : Int) < b - a + 1 := by omega
  have h1 := Int.emod_nonneg (lcg_next s : Int) (ne_of_gt hpos)
  have h2 := Int.emod_lt_of_pos (lcg_next s : Int) hpos
  simp only [lcg]
  constructor <;> omega

theorem lcg_digit_back (d : Nat) (hd : d < 10) : (Nat.digitChar d).toNat - 48 = d := by
  interval_cases d <;> rfl

theorem lcg_readsBack : lcg.ReadsBack := by
  intro s s0
  show lcg_read (lcg_write s) = s
  unfold lcg_read lcg_write
  simp only [List.map_map, List.map_reverse, List.reverse_reverse]
  have : List.map ((fun c : Char => c.toNat - 48) ∘ Nat.digitChar) (Nat.digits 10 s)
      = Nat.digits 10 s := by
    conv_rhs => rw [← List.map_id (Nat.digits 10 s)]
    apply List.map_congr_left
    intro d hd
    exact lcg_digit_back d (Nat.digits_lt_base (by norm_num) hd)
  rw [this, Nat.ofDigits_digits]

theorem lcg_realInRange : lcg.RealInRange := by
  intro a b s hab
  have hm : lcg_next s < 2147483647 := Nat.mod_lt _ (by norm_num)
  have hq0 : (0 : ℚ) ≤ (lcg_next s : ℚ) / 2147483647 := by positivity
  have hq1 : (lcg_next s : ℚ) / 2147483647 < 1 := by
    rw [div_lt_one (by norm_num)]
    exact_mod_cast hm
  show a ≤ a + (b - a) * ((lcg_next s : ℚ) / 2147483647) ∧
    a + (b - a) * ((lcg_next s : ℚ) / 2147483647) < b
  constructor
  · nlinarith
  · nlinarith

/-! ## Lemmas on single draws -/

theorem uniform_integer_spec (hE : E.IntInRange) (min max : Int) (h : min < max)
    (s : E.State) :
    ∃ r s1, uniform_integer E min max s = some (r, s1) ∧ min ≤ r ∧ r < max := by
  have hle : min ≤ max - 1 := by omega
  have hr := hE min (max - 1) s hle
  refine ⟨(E.int_dist min (max - 1) s).1, (E.int_dist min (max - 1) s).2, ?_, hr.1, by omega⟩
  simp [uniform_integer, uniform_integer_rng, uniform_int_dist, hle]

theorem uniform_integer_some (hE : E.IntInRange) {min max : Int} {s s1 : E.State} {r : Int}
    (h : uniform_integer E min max s = some (r, s1)) : min ≤ r ∧ r < max := by
  unfold uniform_integer uniform_integer_rng uniform_int_dist at h
  split_ifs at h with hle
  simp only [Option.some.injEq] at h
  have hr := hE min (max - 1) s hle
  rw [h] at hr
  exact ⟨hr.1, by have := hr.2; simp only at this; omega⟩

/-! ## Seeding and checkpoints -/

theorem reset_eq (s : Nat) (hs : s ≠ 0) (r1 r2 : rng E) (now1 now2 : Nat) :
    r1.reset s now1 = r2.reset s now2 := by
  simp [rng.reset, hs]

theorem on_eng_caches {β : Type} {f : E.State → Option (β × E.State)} {r r1 : rng E} {b : β}
    (h : r.on_eng f = some (b, r1)) : r1._p = r._p ∧ r1._bit = r._bit := by
  unfold rng.on_eng at h
  split at h
  · simp at h
  · simp only [Option.some.injEq, Prod.mk.injEq] at h
    rw [← h.2]
    exact ⟨rfl, rfl⟩

theorem p_caches {r r1 : rng E} {prob : double} {b : Bool} (h : r.p prob = some (b, r1)) :
    r1._p = r._p ∧ r1._bit = r._bit := by
  unfold rng.p at h
  split_ifs at h
  split at h
  · simp at h
  · simp only [Option.some.injEq, Prod.mk.injEq] at h
    rw [← h.2]
    exact ⟨rfl, rfl⟩

theorem bit_caches {r r1 : rng E} {b : Bool} (h : r.bit = some (b, r1)) :
    r1._p = r._p ∧ r1._bit = r._bit := by
  unfold rng.bit at h
  split at h
  · simp at h
  · simp only [Option.some.injEq, Prod.mk.injEq] at h
    rw [← h.2]
    exact ⟨rfl, rfl⟩

theorem exec_caches {α : Type} {fuel : Nat} {r r1 : rng E} {op : Op α} {x : Result α}
    (h : exec fuel r op = some (x, r1)) : r1._p = r._p ∧ r1._bit = r._bit := by
  cases op
  case p prob =>
    simp only [exec] at h
    cases hp : r.p prob with
    | none => simp [hp] at h
    | some y =>
      obtain ⟨b, r2⟩ := y
      simp only [hp, Option.map_some', Option.some.injEq, Prod.mk.injEq] at h
      rw [← h.2]
      exact p_caches hp
  case bit =>
    simp only [exec] at h
    cases hp : r.bit with
    | none => simp [hp] at h
    | some y =>
      obtain ⟨b, r2⟩ := y
      simp only [hp, Option.map_some', Option.some.injEq, Prod.mk.injEq] at h
      rw [← h.2]
      exact bit_caches hp
  all_goals
    simp only [exec] at h
    exact on_eng_caches h

theorem reachable_caches {r : rng E} (hr : Reachable r) :
    r._p = some (0, 1) ∧ r._bit = some (0, 1) := by
  induction hr with
  | ctor now => exact ⟨rfl, rfl⟩
  | ctor_seed s now => exact ⟨rfl, rfl⟩
  | reset s now _ _ => exact ⟨rfl, rfl⟩
  | load state _ ih => exact ih
  | exec _ h ih =>
    have := exec_caches h
    rw [this.1, this.2]
    exact ih

theorem load_save_eq (hE : E.ReadsBack) {r fresh : rng E} (hr : Reachable r)
    (hf : Reachable fresh) : fresh.load r.save = r := by
  have h1 := reachable_caches hr
  have h2 := reachable_caches hf
  obtain ⟨e, p, b⟩ := r
  obtain ⟨e1, p1, b1⟩ := fresh
  simp only at h1 h2
  obtain ⟨rfl, rfl⟩ := h1
  obtain ⟨rfl, rfl⟩ := h2
  simp only [rng.load, rng.save, hE e e1]

/-! ## Drawing positions without replacement -/

theorem perm_cons_eraseIdx {β : Type} {a : β} :
    ∀ (l : List β) (i : Nat), l[i]? = some a → l.Perm (a :: l.eraseIdx i)
  | [], _, h => by simp at h
  | x :: l, 0, h => by
    simp only [List.getElem?_cons_zero, Option.some.injEq] at h
    rw [h]
    simp
  | x :: l, i + 1, h => by
    simp only [List.getElem?_cons_succ] at h
    have ih := perm_cons_eraseIdx l i h
    simp only [List.eraseIdx_cons_succ]
    exact (List.Perm.cons x ih).trans (List.Perm.swap a x _)

theorem advance_eq_some {len : Nat} {k : Int} {i : Nat} (h : advance len k = some i) :
    (i : Int) = k ∧ i ≤ len := by
  unfold advance at h
  split_ifs at h with hk
  simp only [Option.some.injEq] at h
  omega

theorem advance_nat {len i : Nat} (h : i ≤ len) : advance len (i : Int) = some i := by
  simp [advance, h]

theorem draw_index (hE : E.IntInRange) (l : List Nat) (hne : l ≠ []) (s : E.State) :
    ∃ k s1 i src, uniform_integer E 0 l.length s = some (k, s1) ∧ advance l.length k = some i ∧
      l[i]? = some src ∧ l.Perm (src :: l.eraseIdx i) := by
  have hpos : (0 : Int) < (l.length : Int) := by
    have := List.length_pos.mpr hne
    omega
  obtain ⟨k, s1, hk, h0, hlt⟩ := uniform_integer_spec hE 0 (l.length : Int) hpos s
  have hi : k.toNat < l.length := by omega
  refine ⟨k, s1, k.toNat, l[k.toNat], hk, ?_, ?_, ?_⟩
  · have : k ≤ (l.length : Int) := by omega
    simp [advance, h0, this]
  · exact List.getElem?_eq_getElem hi
  · exact perm_cons_eraseIdx l k.toNat (List.getElem?_eq_getElem hi)

theorem choice_rm_step (hE : E.IntInRange) (len : Nat) (rm : List Nat) (hne : rm ≠ [])
    (hrm : ∀ x ∈ rm, x < len) (s : E.State) :
    ∃ pos rm1 s1, choice_rm E len rm s = some (pos, rm1, s1) ∧ rm.Perm (pos :: rm1) := by
  obtain ⟨k, s1, i, src, hk, hi, hsrc, hperm⟩ := draw_index hE rm hne s
  have hmem : src ∈ rm := List.getElem?_mem hsrc
  have hadv : advance len (src : Int) = some src := advance_nat (le_of_lt (hrm src hmem))
  refine ⟨src, rm.eraseIdx i, s1, ?_, hperm⟩
  have hemp : rm.isEmpty = false := by
    cases rm with
    | nil => exact absurd rfl hne
    | cons _ _ => rfl
  simp [choice_rm, hemp, hk, hi, hsrc, hadv]

theorem choice_rm_nil (len : Nat) (s : E.State) :
    choice_rm E len [] s = choice_rm E len (iota len 0) s := by
  simp [choice_rm]

theorem choices_all (hE : E.IntInRange) (len : Nat) :
    ∀ (k : Nat) (rm : List Nat) (s : E.State), rm.length = k → (∀ x ∈ rm, x < len) →
      ∃ ps s1, choices E len k rm s = some (ps, [], s1) ∧ ps.Perm rm
  | 0, rm, s, hk, _ => by
    have : rm = [] := List.length_eq_zero.mp hk
    subst this
    exact ⟨[], s, rfl, List.Perm.refl _⟩
  | k + 1, rm, s, hk, hrm => by
    have hne : rm ≠ [] := by
      intro h
      simp [h] at hk
    obtain ⟨pos, rm1, s1, hstep, hperm⟩ := choice_rm_step hE len rm hne hrm s
    have hlen : rm1.length = k := by
      have := hperm.length_eq
      simp only [List.length_cons] at this
      omega
    have hrm1 : ∀ x ∈ rm1, x < len := fun x hx =>
      hrm x (hperm.symm.subset (List.mem_cons_of_mem _ hx))
    obtain ⟨ps, s2, hrest, hps⟩ := choices_all hE len k rm1 s1 hlen hrm1
    refine ⟨pos :: ps, s2, ?_, ?_⟩
    · simp [choices, hstep, hrest]
    · exact (List.Perm.cons pos hps).trans hperm.symm

theorem iota_zero (n : Nat) : iota n 0 = List.range n := by
  simp [iota, List.range_eq_range']

theorem choices_nil (len k : Nat) (s : E.State) (hk : 0 < k) :
    choices E len k [] s = choices E len k (iota len 0) s := by
  cases k with
  | zero => omega
  | succ k => simp only [choices, choice_rm_nil]

theorem choice_rm_some {len : Nat} {rm rm1 : List Nat} {s s1 : E.State} {pos : Nat}
    (h : choice_rm E len rm s = some (pos, rm1, s1)) :
    (if rm.isEmpty then iota len 0 else rm).Perm (pos :: rm1) := by
  unfold choice_rm at h
  simp only at h
  split at h
  · simp at h
  · split at h
    · simp at h
    · rename_i i hi
      split at h
      · simp at h
      · rename_i src hsrc
        split at h
        · simp at h
        · rename_i pos1 hpos
          simp only [Option.some.injEq, Prod.mk.injEq] at h
          obtain ⟨h1, h2, -⟩ := h
          have hcast := (advance_eq_some hpos).1
          have : pos1 = src := by omega
          subst this
          rw [← h1, ← h2]
          exact perm_cons_eraseIdx _ i hsrc

theorem getElem?_filterMap_range {β : Type} :
    ∀ (xs : List β), (List.range xs.length).filterMap (fun p => xs[p]?) = xs
  | [] => rfl
  | x :: xs => by
    have ih := getElem?_filterMap_range xs
    rw [List.length_cons, List.range_succ_eq_map, List.filterMap_cons]
    simp only [List.getElem?_cons_zero, List.filterMap_map]
    have hf : ((fun p => (x :: xs)[p]?) ∘ Nat.succ) = fun p => xs[p]? := by
      funext p
      simp
    rw [hf, ih]

theorem forall₂_filterMap {β : Type} {xs out : List β} {ps : List Nat}
    (h : List.Forall₂ (fun x p => xs[p]? = some x) out ps) :
    out = ps.filterMap (fun p => xs[p]?) := by
  induction h with
  | nil => rfl
  | cons hx _ ih => simp [List.filterMap_cons, hx, ← ih]

theorem sample_without_replacement_loop_spec (hE : E.IntInRange) {β : Type} (xs : List β) :
    ∀ (n : Nat) (replace : List Nat) (s : E.State), n ≤ replace.length →
      (∀ x ∈ replace, x < xs.length) →
      ∃ out ps s1, sample_without_replacement_loop E xs n replace s = some (out, s1) ∧
        ps.Subperm replace ∧ List.Forall₂ (fun x p => xs[p]? = some x) out ps ∧ ps.length = n
  | 0, replace, s, _, _ =>
    ⟨[], [], s, rfl, List.nil_subperm, List.Forall₂.nil, rfl⟩
  | n + 1, replace, s, hn, hrep => by
    have hne : replace ≠ [] := by
      intro h
      simp [h] at hn
    obtain ⟨k, s1, i, src, hk, hi, hsrc, hperm⟩ := draw_index hE replace hne s
    have hlt : src < xs.length := hrep src (List.getElem?_mem hsrc)
    have hadv : advance xs.length (src : Int) = some src := advance_nat (le_of_lt hlt)
    have hx : xs[src]? = some xs[src] := List.getElem?_eq_getElem hlt
    have hlen : n ≤ (replace.eraseIdx i).length := by
      have := hperm.length_eq
      simp only [List.length_cons] at this
      omega
    have hrep1 : ∀ x ∈ replace.eraseIdx i, x < xs.length := fun x hx =>
      hrep x (List.mem_of_mem_eraseIdx hx)
    obtain ⟨out, ps, s2, hrest, hsub, hall, hps⟩ :=
      sample_without_replacement_loop_spec hE xs n (replace.eraseIdx i) s1 hlen hrep1
    refine ⟨xs[src] :: out, src :: ps, s2, ?_, ?_, List.Forall₂.cons hx hall, by simp [hps]⟩
    · simp [sample_without_replacement_loop, hk, hi, hsrc, hadv, hx, hrest]
    · exact ((List.subperm_cons src).mpr hsub).trans hperm.symm.subperm

/-! ## The redraw loops -/

theorem generate_loop_spec (hE : E.IntInRange) (n : Nat) (min max : Int) :
    ∀ (fuel : Nat) (v : Finset Int) (s s1 : E.State) (out : List Int),
      generate_loop E n min max fuel v s = some (out, s1) → v.card ≤ n →
      v.card + out.length = n ∧ out.Nodup ∧ (∀ x ∈ out, x ∉ v ∧ min ≤ x ∧ x < max) ∧
        ∃ k, k ≤ fuel ∧ out = first_drawn v (draws E min max k s)
  | 0, v, s, s1, out, h, hv => by
    unfold generate_loop at h
    split_ifs at h with hlt
    simp only [Option.some.injEq, Prod.mk.injEq] at h
    obtain ⟨rfl, -⟩ := h
    refine ⟨by simp; omega, List.nodup_nil, by simp, 0, le_refl 0, rfl⟩
  | fuel + 1, v, s, s1, out, h, hv => by
    unfold generate_loop at h
    split_ifs at h with hlt
    · cases hd : uniform_integer E min max s with
      | none => simp [hd] at h
      | some d =>
        obtain ⟨i, s2⟩ := d
        have hi := uniform_integer_some hE hd
        simp only [hd] at h
        split_ifs at h with hmem
        · obtain ⟨hlen, hnd, hall, k, hk, hout⟩ :=
            generate_loop_spec hE n min max fuel v s2 s1 out h hv
          refine ⟨hlen, hnd, hall, k + 1, by omega, ?_⟩
          simp only [draws, hd, first_drawn, hmem, if_true, ← hout]
        · cases hrec : generate_loop E n min max fuel (insert i v) s2 with
          | none => simp [hrec] at h
          | some d1 =>
            obtain ⟨out1, s3⟩ := d1
            simp only [hrec, Option.some.injEq, Prod.mk.injEq] at h
            obtain ⟨rfl, -⟩ := h
            have hcard : (insert i v).card = v.card + 1 := Finset.card_insert_of_not_mem hmem
            obtain ⟨hlen, hnd, hall, k, hk, hout⟩ :=
              generate_loop_spec hE n min max fuel (insert i v) s2 s3 out1 hrec (by omega)
            refine ⟨by simp only [List.length_cons]; omega, ?_, ?_, k + 1, by omega, ?_⟩
            · refine List.nodup_cons.mpr ⟨fun hin => ?_, hnd⟩
              exact (hall i hin).1 (Finset.mem_insert_self i v)
            · intro x hx
              rcases List.mem_cons.mp hx with rfl | hx
              · exact ⟨hmem, hi⟩
              · exact ⟨fun hxv => (hall x hx).1 (Finset.mem_insert_of_mem hxv), (hall x hx).2⟩
            · simp only [draws, hd, first_drawn, hmem, if_false, ← hout]
    · simp only [Option.some.injEq, Prod.mk.injEq] at h
      obtain ⟨rfl, -⟩ := h
      refine ⟨by simp; omega, List.nodup_nil, by simp, 0, Nat.zero_le _, rfl⟩

theorem generate_loop_returns (n : Nat) (min max : Int) :
    ∀ (fuel : Nat) (v : Finset Int) (s : E.State),
      n ≤ v.card + (first_drawn v (draws E min max fuel s)).length →
      ∃ out s1, generate_loop E n min max fuel v s = some (out, s1)
  | 0, v, s, h => by
    simp only [draws, first_drawn, List.length_nil, Nat.add_zero] at h
    exact ⟨[], s, by simp [generate_loop, Nat.not_lt.mpr h]⟩
  | fuel + 1, v, s, h => by
    unfold generate_loop
    split_ifs with hlt
    · cases hd : uniform_integer E min max s with
      | none =>
        simp only [draws, hd, first_drawn, List.length_nil, Nat.add_zero] at h
        omega
      | some d =>
        obtain ⟨i, s2⟩ := d
        simp only [draws, hd, first_drawn] at h
        simp only []
        split_ifs at h with hmem
        · obtain ⟨out, s1, hrec⟩ := generate_loop_returns n min max fuel v s2 h
          simp [hmem, hrec]
        · have hcard : (insert i v).card = v.card + 1 := Finset.card_insert_of_not_mem hmem
          obtain ⟨out, s1, hrec⟩ := generate_loop_returns n min max fuel (insert i v) s2
            (by simp only [List.length_cons] at h; omega)
          simp [hmem, hrec]
    · exact ⟨[], s, rfl⟩

theorem uniform_integer_rng_some (hE : E.IntInRange) {min max : Int} {irng : int_rng_type E}
    (hr : uniform_integer_rng E min max = some irng) (t : E.State) :
    min ≤ (irng t).1 ∧ (irng t).1 < max := by
  unfold uniform_integer_rng uniform_int_dist at hr
  split_ifs at hr with hle
  simp only [Option.some.injEq] at hr
  have := hE min (max - 1) t hle
  rw [hr] at this
  exact ⟨this.1, by omega⟩

theorem redraw_loop_spec (irng : int_rng_type E) (one : Int) (P : Int → Prop)
    (hP : ∀ t, P (irng t).1) :
    ∀ (fuel : Nat) (two : Int) (s s1 : E.State) (r : Int), P two →
      redraw_loop E irng one fuel two s = some (r, s1) → r ≠ one ∧ P r
  | 0, two, s, s1, r, h2, h => by
    unfold redraw_loop at h
    split_ifs at h with heq
    simp only [Option.some.injEq, Prod.mk.injEq] at h
    obtain ⟨rfl, -⟩ := h
    exact ⟨fun h => heq h.symm, h2⟩
  | fuel + 1, two, s, s1, r, h2, h => by
    unfold redraw_loop at h
    split_ifs at h with heq
    · exact redraw_loop_spec irng one P hP fuel (irng s).1 (irng s).2 s1 r (hP s) h
    · simp only [Option.some.injEq, Prod.mk.injEq] at h
      obtain ⟨rfl, -⟩ := h
      exact ⟨fun h => heq h.symm, h2⟩

theorem draws_succ {min max : Int} (hle : min ≤ max - 1) (k : Nat) (s : E.State) :
    draws E min max (k + 1) s
      = (E.int_dist min (max - 1) s).1 :: draws E min max k (E.int_dist min (max - 1) s).2 := by
  simp [draws, uniform_integer, uniform_integer_rng, uniform_int_dist, hle]

theorem draws_of_not_le {min max : Int} (hle : ¬ min ≤ max - 1) (k : Nat) (s : E.State) :
    draws E min max k s = [] := by
  cases k with
  | zero => rfl
  | succ k => simp [draws, uniform_integer, uniform_integer_rng, uniform_int_dist, hle]

theorem redraw_loop_returns {min max : Int} (hle : min ≤ max - 1) (one : Int) :
    ∀ (fuel : Nat) (two : Int) (s : E.State),
      (two ≠ one ∨ ∃ x ∈ draws E min max fuel s, x ≠ one) →
      ∃ r, redraw_loop E (E.int_dist min (max - 1)) one fuel two s = some r
  | 0, two, s, h => by
    have h2 : two ≠ one := by
      rcases h with h | ⟨x, hx, -⟩
      · exact h
      · simp [draws] at hx
    have h3 : ¬ one = two := fun h => h2 h.symm
    exact ⟨(two, s), by simp [redraw_loop, h3]⟩
  | fuel + 1, two, s, h => by
    unfold redraw_loop
    split_ifs with heq
    · rcases h with h | ⟨x, hx, hne⟩
      · exact absurd heq.symm h
      · rw [draws_succ hle] at hx
        apply redraw_loop_returns hle one fuel
        rcases List.mem_cons.mp hx with rfl | hx
        · exact Or.inl hne
        · exact Or.inr ⟨x, hx, hne⟩
    · exact ⟨(two, s), rfl⟩

/-- The loop of `choose_two(min, max)` ends within `fuel` redraws as soon as the first
`fuel + 2` draws of the stream are not all equal. -/
theorem choose_two_returns (fuel : Nat) (min max : Int) (s : E.State)
    (h : ∃ x ∈ draws E min max (fuel + 2) s, ∃ y ∈ draws E min max (fuel + 2) s, x ≠ y) :
    ∃ r, choose_two E fuel min max s = some r := by
  by_cases hle : min ≤ max - 1
  · rw [draws_succ hle, draws_succ hle] at h
    obtain ⟨x, hx, y, hy, hxy⟩ := h
    have hz : ∃ z ∈ (E.int_dist min (max - 1) (E.int_dist min (max - 1) s).2).1 ::
        draws E min max fuel (E.int_dist min (max - 1) (E.int_dist min (max - 1) s).2).2,
        z ≠ (E.int_dist min (max - 1) s).1 := by
      rcases List.mem_cons.mp hx with hx1 | hx1
      · rcases List.mem_cons.mp hy with hy1 | hy1
        · exact absurd (hx1.trans hy1.symm) hxy
        · exact ⟨y, hy1, fun h => hxy (hx1.trans h.symm)⟩
      · by_cases hxo : x = (E.int_dist min (max - 1) s).1
        · rcases List.mem_cons.mp hy with hy1 | hy1
          · exact absurd (hxo.trans hy1.symm) hxy
          · exact ⟨y, hy1, fun h => hxy (hxo.trans h.symm)⟩
        · exact ⟨x, hx1, hxo⟩
    obtain ⟨z, hz, hne⟩ := hz
    have hloop := redraw_loop_returns hle (E.int_dist min (max - 1) s).1 fuel
      (E.int_dist min (max - 1) (E.int_dist min (max - 1) s).2).1
      (E.int_dist min (max - 1) (E.int_dist min (max - 1) s).2).2
      (by
        rcases List.mem_cons.mp hz with rfl | hz
        · exact Or.inl hne
        · exact Or.inr ⟨z, hz, hne⟩)
    obtain ⟨⟨two, s3⟩, hloop⟩ := hloop
    simp only [choose_two, uniform_integer_rng, uniform_int_dist, hle, if_true, hloop]
    split_ifs
    · exact ⟨_, rfl⟩
    · exact ⟨_, rfl⟩
  · rw [draws_of_not_le hle] at h
    obtain ⟨x, hx, -⟩ := h
    simp at hx

/-- The loop of `generate(n, min, max, oi)` ends within `fuel` draws as soon as the first
`fuel` draws of the stream show `n` different values. -/
theorem generate_returns (fuel n : Nat) (min max : Int) (s : E.State)
    (h : n ≤ (first_drawn ∅ (draws E min max fuel s)).length) :
    ∃ out s1, generate E fuel n min max s = some (out, s1) :=
  generate_loop_returns n min max fuel ∅ s (by simpa using h)

/-! ## The neighbor stream -/

theorem choice_spec (hE : E.IntInRange) (len : Nat) (hlen : 0 < len) (s : E.State) :
    ∃ pos s1, choice E len s = some (pos, s1) ∧ pos < len := by
  obtain ⟨k, s1, hk, h0, hlt⟩ := uniform_integer_spec hE 0 (len : Int) (by omega) s
  have hadv : advance len k = some k.toNat := by
    have : k ≤ (len : Int) := by omega
    simp [advance, h0, this]
  exact ⟨k.toNat, s1, by simp [choice, hk, hadv], by omega⟩

theorem dereference_spec (hE : E.IntInRange) (t : well_mixed) (hne : t._locs ≠ [])
    (it : well_mixed.iterator) (ea : E.State) :
    ∃ pos ea1, it.dereference E t ea = some (pos, ea1) ∧ pos < t._locs.length ∧
      choice E t._locs.length ea = some (pos, ea1) := by
  obtain ⟨pos, ea1, hc, hlt⟩ := choice_spec hE t._locs.length (List.length_pos.mpr hne) ea
  exact ⟨pos, ea1, by simp [well_mixed.iterator.dereference, hc, hlt], hlt, hc⟩

theorem walk_spec (hE : E.IntInRange) (t : well_mixed) :
    ∀ (k fuel n : Nat) (ea : E.State), k ≤ fuel → (k = 0 ∨ t._locs ≠ []) →
      ∃ out ea1, walk E t fuel ⟨n⟩ ⟨n + k⟩ ea = some (out, ea1) ∧ out.length = k ∧
        ∀ pos ∈ out, pos < t._locs.length
  | 0, fuel, n, ea, _, _ => by
    refine ⟨[], ea, ?_, rfl, by simp⟩
    cases fuel <;> simp [walk, well_mixed.iterator.equal]
  | k + 1, 0, n, ea, hf, _ => by omega
  | k + 1, fuel + 1, n, ea, hf, hne => by
    have hne1 : t._locs ≠ [] := by
      rcases hne with h | h
      · omega
      · exact h
    obtain ⟨pos, ea1, hd, hlt, -⟩ := dereference_spec hE t hne1 ⟨n⟩ ea
    obtain ⟨out, ea2, hw, hlen, hall⟩ :=
      walk_spec hE t k fuel (n + 1) ea1 (by omega) (Or.inr hne1)
    have hidx : n + 1 + k = n + (k + 1) := by omega
    rw [hidx] at hw
    refine ⟨pos :: out, ea2, ?_, by simp [hlen], ?_⟩
    · have hneq : ¬ n = n + (k + 1) := by omega
      simp [walk, well_mixed.iterator.equal, hneq, hd, well_mixed.iterator.increment, hw]
    · intro q hq
      rcases List.mem_cons.mp hq with rfl | hq
      · exact hlt
      · exact hall q hq

theorem stream_run_spec (hE : E.IntInRange) (t : well_mixed) (hne : t._locs ≠ []) :
    ∀ (ops : List stream_op) (it : well_mixed.iterator) (ea : E.State),
      ∃ ps ea1,
        choice_calls E t._locs.length (ops.count .dereference) ea = some (ps, ea1) ∧
        stream_run E t ops it ea = some (ps, ⟨it._n + ops.count .increment⟩, ea1)
  | [], it, ea => ⟨[], ea, rfl, rfl⟩
  | .increment :: ops, it, ea => by
    obtain ⟨ps, ea1, hc, hr⟩ := stream_run_spec hE t hne ops it.increment ea
    refine ⟨ps, ea1, by simpa using hc, ?_⟩
    have hn : it._n + 1 + List.count stream_op.increment ops
        = it._n + (List.count stream_op.increment ops + 1) := by omega
    simp only [well_mixed.iterator.increment] at hr
    simp only [stream_run, well_mixed.iterator.increment, hr, List.count_cons_self, hn]
  | .dereference :: ops, it, ea => by
    obtain ⟨pos, ea1, hd, -, hch⟩ := dereference_spec hE t hne it ea
    obtain ⟨ps, ea2, hc, hr⟩ := stream_run_spec hE t hne ops it ea1
    refine ⟨pos :: ps, ea2, ?_, ?_⟩
    · simp [choice_calls, hch, hc]
    · simp [stream_run, hd, hr]

/-! ## Initialization and frame of the topology -/

theorem resize_length (locs : List location_type) (n : Nat) : (resize locs n).length = n := by
  simp only [resize, List.length_append, List.length_take, List.length_replicate]
  omega

theorem resize_old (locs : List location_type) (n i : Nat) (hn : i < n)
    (hi : i < locs.length) : (resize locs n)[i]? = locs[i]? := by
  have h1 : i < (locs.take n).length := by
    simp only [List.length_take]
    omega
  rw [resize, List.getElem?_append_left h1, List.getElem?_take_of_lt hn]

theorem resize_new (locs : List location_type) (n i : Nat) (hn : i < n)
    (hi : locs.length ≤ i) : (resize locs n)[i]? = some ⟨0, none⟩ := by
  have h1 : (locs.take n).length ≤ i := by
    simp only [List.length_take]
    omega
  rw [resize, List.getElem?_append_right h1]
  have h2 : i - (locs.take n).length < n - locs.length := by
    simp only [List.length_take]
    omega
  rw [List.getElem?_replicate, if_pos h2]

theorem replace_at_some {t t1 : well_mixed} {i : Nat} {p : individual_ptr_type}
    {alive alive1 : Nat → Bool} (h : t.replace_at i p alive = some (t1, alive1)) :
    ∃ l, t._locs[i]? = some l ∧ t1._locs = t._locs.set i { l with p := p } := by
  unfold well_mixed.replace_at at h
  cases hl : t._locs[i]? with
  | none => simp [hl] at h
  | some l =>
    simp only [hl, Option.some.injEq, Prod.mk.injEq] at h
    exact ⟨l, rfl, by rw [← h.1]; rfl⟩

/-! ## Probabilities, oversized samples and rounding -/

theorem p_eq (r : rng E) (hp : r._p = some (0, 1)) (prob : double) :
    r.p prob = if (prob.ge (.val 0) && prob.le (.val 1)) = true then
      some ((double.val (E.real_dist 0 1 r._eng).1).lt prob,
        { r with _eng := (E.real_dist 0 1 r._eng).2 })
    else none := by
  simp [rng.p, hp]

theorem p_eq_val (r : rng E) (hp : r._p = some (0, 1)) (x : ℚ) :
    r.p (.val x) = if 0 ≤ x ∧ x ≤ 1 then
      some (decide ((E.real_dist 0 1 r._eng).1 < x),
        { r with _eng := (E.real_dist 0 1 r._eng).2 })
    else none := by
  simp [rng.p, hp, double.ge, double.le, double.lt]

theorem p_assert_iff (prob : double) :
    (prob.ge (.val 0) && prob.le (.val 1)) = false ↔
      prob.lt (.val 0) = true ∨ prob.gt (.val 1) = true ∨ prob = .nan := by
  cases prob with
  | val x =>
    simp only [double.ge, double.le, double.lt, double.gt, Bool.and_eq_false_imp,
      decide_eq_true_eq, decide_eq_false_iff_not, not_le, reduceCtorEq, or_false]
    constructor
    · intro h
      by_cases h0 : 0 ≤ x
      · exact Or.inr (h h0)
      · exact Or.inl (not_le.mp h0)
    · intro h h0
      rcases h with h | h
      · exact absurd h0 (not_le.mpr h)
      · exact h
  | pos_inf => simp [double.ge, double.le, double.lt, double.gt]
  | neg_inf => simp [double.ge, double.le, double.lt, double.gt]
  | nan => simp [double.ge, double.le, double.lt, double.gt]

theorem sample_without_replacement_loop_none {β : Type} (xs : List β) :
    ∀ (n : Nat) (replace : List Nat) (s : E.State), replace.length < n →
      sample_without_replacement_loop E xs n replace s = none
  | 0, replace, s, h => by omega
  | n + 1, replace, s, h => by
    unfold sample_without_replacement_loop
    cases hd : uniform_integer E 0 replace.length s with
    | none => rfl
    | some d =>
      obtain ⟨k, s1⟩ := d
      simp only []
      cases hi : advance replace.length k with
      | none => rfl
      | some i =>
        simp only []
        cases hsrc : replace[i]? with
        | none => rfl
        | some src =>
          simp only []
          have hlt : i < replace.length := (List.getElem?_eq_some_iff.mp hsrc).1
          have hlen : (replace.eraseIdx i).length < n := by
            rw [List.length_eraseIdx_of_lt hlt]
            omega
          have hrec := sample_without_replacement_loop_none xs n (replace.eraseIdx i) s1 hlen
          cases hadv : advance xs.length src with
          | none => rfl
          | some t1 =>
            simp only []
            cases hx : xs[t1]? with
            | none => rfl
            | some x => simp only [hrec]

/-- The rounding of `normal_int` is to the nearest integer for a draw `x ≥ -1/2`. -/
theorem to_int_half_nonneg (x : ℚ) (hx : -1 / 2 ≤ x) : |x - to_int (x + 1 / 2)| ≤ 1 / 2 := by
  have h0 : 0 ≤ x + 1 / 2 := by linarith
  simp only [to_int, h0, if_true]
  have h1 := Int.floor_le (x + 1 / 2)
  have h2 := Int.lt_floor_add_one (x + 1 / 2)
  rw [abs_le]
  constructor <;> linarith

/-- For a draw `x < -1/2` the rounding of `normal_int` gives an integer above `x` by at
least `1/2`: the nearest integer only when `x + 1/2` is itself an integer. -/
theorem to_int_half_neg (x : ℚ) (hx : x < -1 / 2) :
    1 / 2 ≤ (to_int (x + 1 / 2) : ℚ) - x ∧ (to_int (x + 1 / 2) : ℚ) - x < 3 / 2 := by
  have h0 : ¬ 0 ≤ x + 1 / 2 := by
    intro h
    linarith
  simp only [to_int, h0, if_false]
  have h1 := Int.le_ceil (x + 1 / 2)
  have h2 := Int.ceil_lt_add_one (x + 1 / 2)
  constructor <;> linarith

/-! ## The full-range draw and the nonzero real draw -/

theorem uniform_integer0_eq (s : E.State) :
    uniform_integer0 E s = some (E.int_dist INT_MIN (INT_MAX - 1) s) := by
  have hle : INT_MIN ≤ INT_MAX - 1 := by decide
  simp [uniform_integer0, uniform_integer, uniform_integer_rng, uniform_int_dist, hle]

theorem uniform_integer0_le (hE : E.IntInRange) {s s1 : E.State} {r : Int}
    (h : uniform_integer0 E s = some (r, s1)) : INT_MIN ≤ r ∧ r ≤ INT_MAX - 1 := by
  have := uniform_integer_some hE h
  exact ⟨this.1, by omega⟩

theorem uniform_real_some (hR : E.RealInRange) {min max : ℚ} (hlt : min < max)
    {s s1 : E.State} {r : ℚ} (h : uniform_real E min max s = some (r, s1)) :
    min ≤ r ∧ r < max := by
  unfold uniform_real uniform_real_rng uniform_real_dist at h
  rw [if_pos (le_of_lt hlt)] at h
  simp only [Option.some.injEq] at h
  have hr := hR min max s hlt
  rw [h] at hr
  exact hr

theorem uniform_real_nz_loop_spec (min max : ℚ) (P : ℚ → Prop)
    (hP : ∀ (t t1 : E.State) (r : ℚ), uniform_real E min max t = some (r, t1) → P r) :
    ∀ (fuel : Nat) (r0 : ℚ) (s s1 : E.State) (r : ℚ), P r0 →
      uniform_real_nz_loop E min max fuel r0 s = some (r, s1) → r ≠ 0 ∧ P r
  | 0, r0, s, s1, r, h0, h => by
    unfold uniform_real_nz_loop at h
    split_ifs at h with hz
    simp only [Option.some.injEq, Prod.mk.injEq] at h
    obtain ⟨rfl, -⟩ := h
    exact ⟨hz, h0⟩
  | fuel + 1, r0, s, s1, r, h0, h => by
    unfold uniform_real_nz_loop at h
    split_ifs at h with hz
    · cases hd : uniform_real E min max s with
      | none => simp [hd] at h
      | some d =>
        obtain ⟨r1, s2⟩ := d
        simp only [hd] at h
        exact uniform_real_nz_loop_spec min max P hP fuel r1 s2 s1 r (hP s s2 r1 hd) h
    · simp only [Option.some.injEq, Prod.mk.injEq] at h
      obtain ⟨rfl, -⟩ := h
      exact ⟨hz, h0⟩

theorem uniform_real_nz_spec (min max : ℚ) (P : ℚ → Prop)
    (hP : ∀ (t t1 : E.State) (r : ℚ), uniform_real E min max t = some (r, t1) → P r)
    {fuel : Nat} {s s1 : E.State} {r : ℚ}
    (h : uniform_real_nz E fuel min max s = some (r, s1)) : r ≠ 0 ∧ P r := by
  unfold uniform_real_nz at h
  cases hd : uniform_real E min max s with
  | none => simp [hd] at h
  | some d =>
    obtain ⟨r1, s2⟩ := d
    simp only [hd] at h
    exact uniform_real_nz_loop_spec min max P hP fuel r1 s2 s1 r (hP s s2 r1 hd) h

theorem uniform_real_nz_first (fuel : Nat) (min max : ℚ) {s s1 : E.State} {r : ℚ}
    (h : uniform_real E min max s = some (r, s1)) (hr : r ≠ 0) :
    uniform_real_nz E fuel min max s = some (r, s1) := by
  unfold uniform_real_nz
  simp only [h]
  cases fuel <;> simp [uniform_real_nz_loop, hr]

/-- What holds of the range of `uniform_real_nz(min, max)`: a value it returns lies in
`[min, max)` and is not zero, so it lies in the open range when `min` is zero. -/
theorem uniform_real_nz_range (hR : E.RealInRange) {min max : ℚ} (hlt : min < max)
    {fuel : Nat} {s s1 : E.State} {r : ℚ}
    (h : uniform_real_nz E fuel min max s = some (r, s1)) :
    min ≤ r ∧ r < max ∧ r ≠ 0 := by
  have := uniform_real_nz_spec min max (fun r => min ≤ r ∧ r < max)
    (fun t t1 r ht => uniform_real_some hR hlt ht) h
  exact ⟨this.2.1, this.2.2, this.1⟩

/-! ## Claims on seeding, checkpoints and ranges -/

/-- C1: for every seed `s ≠ 0`, two engines (whatever they held before, and whatever the
clock shows) that are each `reset(s)` and then driven through the same sequence of calls
return the same result at every step. -/
theorem reset_run_deterministic {α : Type} (s : Nat) (hs : s ≠ 0) (r1 r2 : rng E)
    (now1 now2 : Nat) (fuel : Nat) (ops : List (Op α)) :
    run fuel ops (r1.reset s now1) = run fuel ops (r2.reset s now2) := by
  rw [reset_eq s hs r1 r2 now1 now2]

/-- The scenario of C1: `reset(42)` and five calls `uniform_integer(0, 10)`, on two
objects built at different times; on the congruential engine both give `2, 7, 7, 5, 2`. -/
theorem reset_run_deterministic_witness :
    42 ≠ 0 ∧
      @run lcg Nat 0 (List.replicate 5 (Op.uniform_integer 0 10)) ((rng.ctor lcg 1000).reset 42 1001)
        = @run lcg Nat 0 (List.replicate 5 (Op.uniform_integer 0 10))
            ((rng.ctor lcg 2000).reset 42 2002) ∧
      @run lcg Nat 0 (List.replicate 5 (Op.uniform_integer 0 10)) ((rng.ctor lcg 2000).reset 42 2002)
        = [some (.int 2), some (.int 7), some (.int 7), some (.int 5), some (.int 2)] :=
  ⟨by decide, reset_run_deterministic 42 (by decide) _ _ 1001 2002 0 _, by decide⟩

/-- The seed `0` is the exception to C1: `reset(0)` seeds from the clock, so two resets at
different times leave different engines. -/
theorem reset_zero_reads_clock :
    ((rng.ctor lcg 1000).reset 0 1001)._eng ≠ ((rng.ctor lcg 1000).reset 0 1002)._eng := by
  decide

/-- C2: the token that `save` writes for an object in use, loaded into another object
(in particular one just constructed), gives an object on which every sequence of calls,
`p` and `bit` included, returns what it returns on the original. -/
theorem save_load_run {α : Type} (hE : E.ReadsBack) {r fresh : rng E} (hr : Reachable r)
    (hf : Reachable fresh) (fuel : Nat) (ops : List (Op α)) :
    run fuel ops (fresh.load r.save) = run fuel ops r := by
  rw [load_save_eq hE hr hf]

/-- C2 on the congruential engine: the object reached from `rng(42)` by one call
`uniform_integer(0, 10)` is saved and loaded into an object built by `rng()`. -/
theorem save_load_run_witness :
    lcg.ReadsBack ∧
      Reachable (⟨2027382, some (0, 1), some (0, 1)⟩ : rng lcg) ∧
      Reachable (rng.ctor lcg 7) ∧
      @run lcg Nat 0 [Op.p (.val (1 / 2)), Op.bit, Op.uniform_integer 0 10]
          ((rng.ctor lcg 7).load (rng.save (⟨2027382, some (0, 1), some (0, 1)⟩ : rng lcg)))
        = @run lcg Nat 0 [Op.p (.val (1 / 2)), Op.bit, Op.uniform_integer 0 10]
          ⟨2027382, some (0, 1), some (0, 1)⟩ :=
  have hr : Reachable (⟨2027382, some (0, 1), some (0, 1)⟩ : rng lcg) :=
    Reachable.exec (Reachable.ctor_seed 42 0)
      (rfl : @exec lcg Nat 0 (rng.ctor_seed lcg 42 0) (Op.uniform_integer 0 10)
        = some (Result.int 2, ⟨2027382, some (0, 1), some (0, 1)⟩))
  ⟨lcg_readsBack, hr, Reachable.ctor 7,
    save_load_run lcg_readsBack hr (Reachable.ctor 7) 0 _⟩

/-- C3: for `min < max`, `uniform_integer(min, max)` returns a value `r` with
`min ≤ r < max`, given that a draw of the closed-range distribution stays in its range. -/
theorem uniform_integer_in_range (hE : E.IntInRange) (min max : Int) (h : min < max)
    (s : E.State) :
    ∃ r s1, uniform_integer E min max s = some (r, s1) ∧ min ≤ r ∧ r < max :=
  uniform_integer_spec hE min max h s

/-- C3 at `uniform_integer(0, 10)` on the congruential engine in state `42`. -/
theorem uniform_integer_in_range_witness :
    lcg.IntInRange ∧ (0 : Int) < 10 ∧
      ∃ r s1, uniform_integer lcg 0 10 42 = some (r, s1) ∧ 0 ≤ r ∧ r < 10 :=
  ⟨lcg_intInRange, by decide, uniform_integer_in_range lcg_intInRange 0 10 (by decide) 42⟩

/-! ## Claims on drawing without replacement -/

/-- C4: on a range of `N ≥ 1` elements, `N` successive calls `choice(first, last, rm)`
that start from an empty replacement map all return, and the positions they return are
pairwise distinct positions of the range, each position exactly once (a permutation of
`0, …, N - 1`), the map being empty afterwards; and every call that returns takes exactly
the position it returns out of the map it draws from. -/
theorem choice_rm_exhaustion (hE : E.IntInRange) (N : Nat) (hN : 1 ≤ N) (s : E.State) :
    (∃ ps s1, choices E N N [] s = some (ps, [], s1) ∧ ps.length = N ∧ ps.Nodup ∧
      (∀ p ∈ ps, p < N) ∧ ps.Perm (List.range N)) ∧
    (∀ (rm rm1 : List Nat) (s s1 : E.State) (pos : Nat),
      choice_rm E N rm s = some (pos, rm1, s1) →
        (if rm.isEmpty then iota N 0 else rm).Perm (pos :: rm1)) := by
  refine ⟨?_, fun rm rm1 s s1 pos h => choice_rm_some h⟩
  have hrange : ∀ x ∈ iota N 0, x < N := by
    intro x hx
    rw [iota_zero] at hx
    exact List.mem_range.mp hx
  obtain ⟨ps, s1, hps, hperm⟩ :=
    choices_all hE N N (iota N 0) s (by simp [iota]) hrange
  rw [iota_zero] at hperm
  refine ⟨ps, s1, ?_, ?_, ?_, ?_, hperm⟩
  · rw [choices_nil N N s hN, hps]
  · simpa using hperm.length_eq
  · exact hperm.nodup_iff.mpr (List.nodup_range N)
  · exact fun p hp => List.mem_range.mp (hperm.subset hp)

/-- C4 on a range of three elements, on the congruential engine in state `5`: the three
calls return the positions `2, 0, 1`, and the first call leaves `0, 1` in the map. -/
theorem choice_rm_exhaustion_witness :
    lcg.IntInRange ∧ 1 ≤ 3 ∧ choices lcg 3 3 [] 5 = some ([2, 0, 1], [], 14523489) ∧
    (∃ ps s1, choices lcg 3 3 [] 5 = some (ps, [], s1) ∧ ps.length = 3 ∧ ps.Nodup ∧
      (∀ p ∈ ps, p < 3) ∧ ps.Perm (List.range 3)) ∧
    choice_rm lcg 3 [] 5 = some (2, [0, 1], 241355) ∧
    (if ([] : List Nat).isEmpty then iota 3 0 else []).Perm (2 :: [0, 1]) :=
  ⟨lcg_intInRange, by decide, by decide,
    (choice_rm_exhaustion lcg_intInRange 3 (by decide) 5).1, by decide,
    (choice_rm_exhaustion lcg_intInRange 3 (by decide) 5).2 [] [0, 1] 5 241355 2 (by decide)⟩

/-- C5 as stated fails: on a range of two elements the two calls return both positions
and empty the map, and the third call returns position `0` instead of failing. -/
theorem choice_rm_third_call_returns :
    choices lcg 2 2 [] 1 = some ([1, 0], [], 182605794) ∧
      choice_rm lcg 2 [] 182605794 = some (0, [1], 1291394886) := by
  decide

/-- C5, amended: after the `N` calls have returned every position once the map is empty
again, and the call `N + 1` with that map fills it afresh with all `N` positions and
returns one of them, the other `N - 1` staying in the map. -/
theorem choice_rm_after_exhaustion (hE : E.IntInRange) (N : Nat) (hN : 1 ≤ N) (s : E.State) :
    ∃ ps s1, choices E N N [] s = some (ps, [], s1) ∧ ps.Perm (List.range N) ∧
      ∃ pos rm1 s2, choice_rm E N [] s1 = some (pos, rm1, s2) ∧ pos < N ∧
        rm1.length = N - 1 ∧ (List.range N).Perm (pos :: rm1) := by
  have hrange : ∀ x ∈ iota N 0, x < N := by
    intro x hx
    rw [iota_zero] at hx
    exact List.mem_range.mp hx
  have hne : iota N 0 ≠ [] := by
    intro h
    have := congrArg List.length h
    simp [iota] at this
    omega
  obtain ⟨ps, s1, hps, hperm⟩ :=
    choices_all hE N N (iota N 0) s (by simp [iota]) hrange
  obtain ⟨pos, rm1, s2, hstep, hperm1⟩ := choice_rm_step hE N (iota N 0) hne hrange s1
  rw [iota_zero] at hperm hperm1
  refine ⟨ps, s1, ?_, hperm, pos, rm1, s2, ?_, ?_, ?_, hperm1⟩
  · rw [choices_nil N N s hN, hps]
  · rw [choice_rm_nil, hstep]
  · exact List.mem_range.mp (hperm1.symm.subset (List.mem_cons_self _ _))
  · have := hperm1.length_eq
    simp only [List.length_range, List.length_cons] at this
    omega

/-- C5, amended, on a range of two elements on the congruential engine in state `1`. -/
theorem choice_rm_after_exhaustion_witness :
    lcg.IntInRange ∧ 1 ≤ 2 ∧
      ∃ ps s1, choices lcg 2 2 [] 1 = some (ps, [], s1) ∧ ps.Perm (List.range 2) ∧
        ∃ pos rm1 s2, choice_rm lcg 2 [] s1 = some (pos, rm1, s2) ∧ pos < 2 ∧
          rm1.length = 2 - 1 ∧ (List.range 2).Perm (pos :: rm1) :=
  ⟨lcg_intInRange, by decide, choice_rm_after_exhaustion lcg_intInRange 2 (by decide) 1⟩

/-- C6: for `n ≤ L`, `sample_without_replacement` on a range of `L` elements returns
after writing exactly `n` elements; the `k`-th one is the element at a source position
`ps[k]`, the positions `ps` being pairwise distinct positions of the range; so the output
is a sub-multiset of the input and, for `n = L`, a permutation of it. -/
theorem sample_without_replacement_distinct (hE : E.IntInRange) {β : Type} (xs : List β)
    (n : Nat) (hn : n ≤ xs.length) (s : E.State) :
    ∃ out ps s1, sample_without_replacement E xs n s = some (out, s1) ∧ out.length = n ∧
      ps.Nodup ∧ (∀ p ∈ ps, p < xs.length) ∧
      List.Forall₂ (fun x p => xs[p]? = some x) out ps ∧
      out.Subperm xs ∧ (n = xs.length → out.Perm xs) := by
  have hrange : ∀ x ∈ algorithm.iota xs.length, x < xs.length := by
    intro x hx
    rw [algorithm.iota, iota_zero] at hx
    exact List.mem_range.mp hx
  obtain ⟨out, ps, s1, hrun, hsub, hall, hps⟩ :=
    sample_without_replacement_loop_spec hE xs n (algorithm.iota xs.length) s
      (by simp [algorithm.iota, iota, hn]) hrange
  rw [algorithm.iota, iota_zero] at hsub
  have hout := forall₂_filterMap hall
  obtain ⟨l, hl, hlsub⟩ := hsub
  have hsubperm : out.Subperm xs := by
    refine ⟨l.filterMap (fun p => xs[p]?), ?_, ?_⟩
    · rw [hout]
      exact hl.filterMap _
    · have := hlsub.filterMap (fun p => xs[p]?)
      rwa [getElem?_filterMap_range] at this
  refine ⟨out, ps, s1, hrun, ?_, ?_, ?_, hall, hsubperm, ?_⟩
  · rw [hall.length_eq, hps]
  · exact hl.nodup_iff.mp ((List.nodup_range _).sublist hlsub)
  · exact fun p hp => List.mem_range.mp (hlsub.subset (hl.symm.subset hp))
  · intro hnL
    exact hsubperm.perm_of_length_le (by rw [hall.length_eq, hps, hnL])

/-- C6 for two out of three elements, on the congruential engine in state `1`. -/
theorem sample_without_replacement_distinct_witness :
    lcg.IntInRange ∧ 2 ≤ [10, 20, 30].length ∧
      sample_without_replacement lcg [10, 20, 30] 2 1 = some ([20, 10], 182605794) ∧
      ∃ out ps s1, sample_without_replacement lcg [10, 20, 30] 2 1 = some (out, s1) ∧
        out.length = 2 ∧ ps.Nodup ∧ (∀ p ∈ ps, p < [10, 20, 30].length) ∧
        List.Forall₂ (fun x p => [10, 20, 30][p]? = some x) out ps ∧
        out.Subperm [10, 20, 30] ∧ (2 = [10, 20, 30].length → out.Perm [10, 20, 30]) :=
  ⟨lcg_intInRange, by decide, by decide,
    sample_without_replacement_distinct lcg_intInRange [10, 20, 30] 2 (by decide) 1⟩

/-! ## Claims on the redraw loops -/

/-- C7: whenever `generate(n, min, max, oi)` returns, it has written exactly `n` integers
that are pairwise distinct and each in `[min, max)`, in the order in which the stream of
draws first showed them: a draw that repeats an earlier one writes nothing.  (The bound
`n ≤ max - min` of the claim is what lets a stream return; the property needs no bound.) -/
theorem generate_distinct (hE : E.IntInRange) (fuel n : Nat) (min max : Int)
    (s s1 : E.State) (out : List Int) (h : generate E fuel n min max s = some (out, s1)) :
    out.length = n ∧ out.Nodup ∧ (∀ x ∈ out, min ≤ x ∧ x < max) ∧
      ∃ k, out = first_drawn ∅ (draws E min max k s) := by
  obtain ⟨hlen, hnd, hall, k, -, hout⟩ :=
    generate_loop_spec hE n min max fuel ∅ s s1 out h (by simp)
  refine ⟨by simpa using hlen, hnd, fun x hx => (hall x hx).2, k, hout⟩

/-- C7 for `generate(3, 0, 4, oi)` on the congruential engine in state `4`, whose draws
are `0, 0, 2, 3`: the second draw repeats the first and is skipped. -/
theorem generate_distinct_witness :
    lcg.IntInRange ∧ generate lcg 5 3 0 4 4 = some ([0, 2, 3], 1216431607) ∧
      draws lcg 0 4 4 4 = [0, 0, 2, 3] ∧
      (([0, 2, 3] : List Int).length = 3 ∧ ([0, 2, 3] : List Int).Nodup ∧
        (∀ x ∈ ([0, 2, 3] : List Int), 0 ≤ x ∧ x < 4) ∧
        ∃ k, [0, 2, 3] = first_drawn ∅ (draws lcg 0 4 k 4)) :=
  ⟨lcg_intInRange, by decide, by decide,
    generate_distinct lcg_intInRange 5 3 0 4 4 1216431607 [0, 2, 3] (by decide)⟩

/-- C8: whenever `choose_two(min, max)` returns, the pair `(a, b)` it returns has
`min ≤ a < b < max`: two different values of the range in ascending order.  (A call can
only return when `max - min ≥ 2`.) -/
theorem choose_two_sorted (hE : E.IntInRange) (fuel : Nat) (min max : Int) (s s1 : E.State)
    (a b : Int) (h : choose_two E fuel min max s = some ((a, b), s1)) :
    min ≤ a ∧ a < b ∧ b < max := by
  unfold choose_two at h
  cases hr : uniform_integer_rng E min max with
  | none => simp [hr] at h
  | some irng =>
    have hP := uniform_integer_rng_some hE hr
    simp only [hr] at h
    cases hloop : redraw_loop E irng (irng s).1 fuel (irng (irng s).2).1 (irng (irng s).2).2 with
    | none => simp [hloop] at h
    | some d =>
      obtain ⟨two, s3⟩ := d
      have hspec := redraw_loop_spec irng (irng s).1 (fun x => min ≤ x ∧ x < max) hP fuel _ _
        s3 two (hP _) hloop
      have hone := hP s
      simp only [hloop] at h
      split_ifs at h with hgt
      · simp only [Option.some.injEq, Prod.mk.injEq] at h
        obtain ⟨⟨rfl, rfl⟩, -⟩ := h
        exact ⟨hspec.2.1, hgt, hone.2⟩
      · simp only [Option.some.injEq, Prod.mk.injEq] at h
        obtain ⟨⟨rfl, rfl⟩, -⟩ := h
        have := hspec.1
        exact ⟨hone.1, by omega, hspec.2.2⟩

/-- C8 for `choose_two(0, 3)` on the congruential engine in state `14`, whose draws are
`2, 2, 1`: the second value is drawn again and the pair is swapped. -/
theorem choose_two_sorted_witness :
    lcg.IntInRange ∧ choose_two lcg 2 0 3 14 = some ((1, 2), 899659228) ∧
      draws lcg 0 3 3 14 = [2, 2, 1] ∧ ((0 : Int) ≤ 1 ∧ (1 : Int) < 2 ∧ (2 : Int) < 3) :=
  ⟨lcg_intInRange, by decide, by decide,
    choose_two_sorted lcg_intInRange 2 0 3 14 899659228 1 2 (by decide)⟩

/-- What `choose_two_range(f, l)` returns: the positions `f + one` and `f + two` in the
order of the draws, where `one` is the first draw of the stream and `two` the first later
draw that differs from it; they are two different positions of `[f, l)`. -/
theorem choose_two_range_spec (hE : E.IntInRange) (fuel len : Nat) (s s1 : E.State)
    (a b : Nat) (h : choose_two_range E fuel len s = some ((a, b), s1)) :
    draws E 0 len 1 s = [(a : Int)] ∧ a ≠ b ∧ a < len ∧ b < len := by
  unfold choose_two_range at h
  cases hr : uniform_integer_rng E 0 len with
  | none => simp [hr] at h
  | some irng =>
    have hP := uniform_integer_rng_some hE hr
    simp only [hr] at h
    cases hloop : redraw_loop E irng (irng s).1 fuel (irng (irng s).2).1 (irng (irng s).2).2 with
    | none => simp [hloop] at h
    | some d =>
      obtain ⟨two, s3⟩ := d
      have hspec := redraw_loop_spec irng (irng s).1 (fun x => 0 ≤ x ∧ x < (len : Int)) hP fuel
        _ _ s3 two (hP _) hloop
      have hone := hP s
      simp only [hloop] at h
      split at h
      · rename_i a1 b1 ha hb
        simp only [Option.some.injEq, Prod.mk.injEq] at h
        obtain ⟨⟨rfl, rfl⟩, -⟩ := h
        have h1 := (advance_eq_some ha).1
        have h2 := (advance_eq_some hb).1
        have h3 := hspec.1
        have h4 := hspec.2
        simp only at h4
        refine ⟨by simp [draws, uniform_integer, hr, h1], ?_, by omega, by omega⟩
        intro hab
        rw [hab] at h1
        omega
      · simp at h

/-- C9 fails on the code: on a range of two elements, on the congruential engine in
state `1`, the draws are `1, 0` and `choose_two_range` returns the positions in that
order, the first after the second. -/
theorem choose_two_range_unsorted :
    choose_two_range lcg 0 2 1 = some ((1, 0), 182605794) ∧ draws lcg 0 2 2 1 = [1, 0] := by
  decide

/-! ## Claims on the topology -/

/-- C10: after `replace(l, p)` the occupant of `l` is `p`, and an individual `q` that
occupied `l` before the call is not alive after it.  The same holds for a location of a
topology in any state, so over any sequence of `replace` calls: the location written is
`_locs[i]`, it holds `p` afterwards (one pointer, so at most one individual), and the
individual it held before is not alive. -/
theorem replace_occupancy (l : location_type) (p : individual_ptr_type) (alive : Nat → Bool) :
    (well_mixed.replace l p alive).1.p = p ∧
    (∀ q, l.p = some q → (well_mixed.replace l p alive).2 q = false) ∧
    (∀ (t t1 : well_mixed) (i : Nat) (alive1 : Nat → Bool),
      t.replace_at i p alive = some (t1, alive1) →
        t1._locs.length = t._locs.length ∧ (t1._locs[i]?).map (fun l => l.p) = some p ∧
        ∀ q, (t._locs[i]?).bind (fun l => l.p) = some q → alive1 q = false) := by
  refine ⟨rfl, ?_, ?_⟩
  · intro q hq
    simp [well_mixed.replace, hq]
  · intro t t1 i alive1 h
    unfold well_mixed.replace_at at h
    cases hl : t._locs[i]? with
    | none => simp [hl] at h
    | some l1 =>
      simp only [hl, Option.some.injEq, Prod.mk.injEq] at h
      obtain ⟨rfl, rfl⟩ := h
      have hi : i < t._locs.length := by
        by_contra hge
        rw [List.getElem?_eq_none (not_lt.mp hge)] at hl
        exact Option.noConfusion hl
      refine ⟨by simp, ?_, ?_⟩
      · simp [List.getElem?_set, hi, well_mixed.replace]
      · intro q hq
        simp only [hl, Option.some_bind] at hq
        simp [well_mixed.replace, hq]

/-- C10 on a topology of two locations, the second one occupied by individual `3`, which
`replace` displaces by individual `5`. -/
theorem replace_occupancy_witness :
    (well_mixed.replace ⟨1, some 3⟩ (some 5) (fun _ => true)).1.p = some 5 ∧
    (well_mixed.replace ⟨1, some 3⟩ (some 5) (fun _ => true)).2 3 = false ∧
    (well_mixed.replace_at ⟨[⟨0, none⟩, ⟨1, some 3⟩]⟩ 1 (some 5) (fun _ => true)).map
        (fun r => (r.1, r.2 3, r.2 5))
      = some (⟨[⟨0, none⟩, ⟨1, some 5⟩]⟩, false, true) ∧
    ((⟨[⟨0, none⟩, ⟨1, some 5⟩]⟩ : well_mixed)._locs.length
        = (⟨[⟨0, none⟩, ⟨1, some 3⟩]⟩ : well_mixed)._locs.length ∧
      ((⟨[⟨0, none⟩, ⟨1, some 5⟩]⟩ : well_mixed)._locs[1]?).map (fun l => l.p) = some (some 5) ∧
      ∀ q, ((⟨[⟨0, none⟩, ⟨1, some 3⟩]⟩ : well_mixed)._locs[1]?).bind (fun l => l.p) = some q →
        Function.update (fun _ => true) 3 false q = false) :=
  ⟨(replace_occupancy ⟨1, some 3⟩ (some 5) (fun _ => true)).1,
    (replace_occupancy ⟨1, some 3⟩ (some 5) (fun _ => true)).2.1 3 rfl,
    by decide,
    (replace_occupancy ⟨1, some 3⟩ (some 5) (fun _ => true)).2.2
      ⟨[⟨0, none⟩, ⟨1, some 3⟩]⟩ ⟨[⟨0, none⟩, ⟨1, some 5⟩]⟩ 1
      (Function.update (fun _ => true) 3 false) rfl⟩

/-! ## Claims on the neighbor stream and on initialization -/

/-- C11: for a topology of `C` locations, whatever their occupants and whatever the
organism argument, the walk over the iterator pair that `neighborhood` returns ends
after exactly `C` dereference-and-increment steps, and every position dereferenced is the
position of one of the `C` locations. -/
theorem neighborhood_quota (hE : E.IntInRange) (t : well_mixed) (p : individual_ptr_type)
    (ea : E.State) (fuel : Nat) (hfuel : t._locs.length ≤ fuel) :
    ∃ out ea1,
      walk E (well_mixed.neighborhood E t p ea).2.1 fuel
          (well_mixed.neighborhood E t p ea).1.1 (well_mixed.neighborhood E t p ea).1.2
          (well_mixed.neighborhood E t p ea).2.2 = some (out, ea1) ∧
        out.length = t._locs.length ∧ ∀ pos ∈ out, pos < t._locs.length := by
  have hC : t._locs.length = 0 ∨ t._locs ≠ [] := by
    cases h : t._locs with
    | nil => exact Or.inl rfl
    | cons a l => exact Or.inr (List.cons_ne_nil a l)
  have := walk_spec hE t t._locs.length fuel 0 ea hfuel hC
  simpa [well_mixed.neighborhood] using this

/-- C11 on a topology of three locations, one of them occupied, on the congruential
engine in state `1`: the walk dereferences the positions `1, 0, 0`. -/
theorem neighborhood_quota_witness :
    lcg.IntInRange ∧
      (⟨[⟨0, none⟩, ⟨0, some 3⟩, ⟨0, none⟩]⟩ : well_mixed)._locs.length ≤ 3 ∧
      walk lcg ⟨[⟨0, none⟩, ⟨0, some 3⟩, ⟨0, none⟩]⟩ 3 ⟨0⟩ ⟨3⟩ 1
        = some ([1, 0, 0], 1291394886) ∧
      ∃ out ea1,
        walk lcg
          (well_mixed.neighborhood lcg ⟨[⟨0, none⟩, ⟨0, some 3⟩, ⟨0, none⟩]⟩ (some 3) 1).2.1 3
          (well_mixed.neighborhood lcg ⟨[⟨0, none⟩, ⟨0, some 3⟩, ⟨0, none⟩]⟩ (some 3) 1).1.1
          (well_mixed.neighborhood lcg ⟨[⟨0, none⟩, ⟨0, some 3⟩, ⟨0, none⟩]⟩ (some 3) 1).1.2
          (well_mixed.neighborhood lcg ⟨[⟨0, none⟩, ⟨0, some 3⟩, ⟨0, none⟩]⟩ (some 3) 1).2.2
            = some (out, ea1) ∧
          out.length = (⟨[⟨0, none⟩, ⟨0, some 3⟩, ⟨0, none⟩]⟩ : well_mixed)._locs.length ∧
          ∀ pos ∈ out,
            pos < (⟨[⟨0, none⟩, ⟨0, some 3⟩, ⟨0, none⟩]⟩ : well_mixed)._locs.length :=
  ⟨lcg_intInRange, by decide, by decide,
    neighborhood_quota lcg_intInRange ⟨[⟨0, none⟩, ⟨0, some 3⟩, ⟨0, none⟩]⟩ (some 3) 1 3
      (by decide)⟩

/-- C12: `neighborhood` hands the engine back as it was, and any sequence of increments
and dereferences of the stream position it returns gives what as many successive calls
`rng.choice` over all locations as there are dereferences give from the same engine, the
same positions and the same engine afterwards: an increment draws nothing, a dereference
draws once, and a second dereference of one position takes the next draw. -/
theorem stream_lazy (hE : E.IntInRange) (t : well_mixed) (hne : t._locs ≠ [])
    (p : individual_ptr_type) (ea : E.State) (ops : List stream_op) :
    (well_mixed.neighborhood E t p ea).2.2 = ea ∧
    ∃ ps ea1,
      choice_calls E t._locs.length (ops.count .dereference) ea = some (ps, ea1) ∧
      stream_run E t ops (well_mixed.neighborhood E t p ea).1.1
          (well_mixed.neighborhood E t p ea).2.2
        = some (ps, ⟨ops.count .increment⟩, ea1) := by
  refine ⟨rfl, ?_⟩
  obtain ⟨ps, ea1, hc, hr⟩ := stream_run_spec hE t hne ops ⟨0⟩ ea
  exact ⟨ps, ea1, hc, by simpa [well_mixed.neighborhood] using hr⟩

/-- C12 on a topology of three locations on the congruential engine in state `1`: after
one increment, two dereferences of the same position return the positions `1` and `0`,
the first two values that `rng.choice` draws. -/
theorem stream_lazy_witness :
    lcg.IntInRange ∧ (⟨[⟨0, none⟩, ⟨0, some 3⟩, ⟨0, none⟩]⟩ : well_mixed)._locs ≠ [] ∧
      choice_calls lcg 3 2 1 = some ([1, 0], 182605794) ∧
      stream_run lcg ⟨[⟨0, none⟩, ⟨0, some 3⟩, ⟨0, none⟩]⟩
          [.increment, .dereference, .dereference] ⟨0⟩ 1
        = some ([1, 0], ⟨1⟩, 182605794) ∧
      ((well_mixed.neighborhood lcg ⟨[⟨0, none⟩, ⟨0, some 3⟩, ⟨0, none⟩]⟩ none 1).2.2 = 1 ∧
      ∃ ps ea1,
        choice_calls lcg (⟨[⟨0, none⟩, ⟨0, some 3⟩, ⟨0, none⟩]⟩ : well_mixed)._locs.length
            (List.count stream_op.dereference [.increment, .dereference, .dereference]) 1
          = some (ps, ea1) ∧
        stream_run lcg ⟨[⟨0, none⟩, ⟨0, some 3⟩, ⟨0, none⟩]⟩
            [.increment, .dereference, .dereference]
            (well_mixed.neighborhood lcg ⟨[⟨0, none⟩, ⟨0, some 3⟩, ⟨0, none⟩]⟩ none 1).1.1
            (well_mixed.neighborhood lcg ⟨[⟨0, none⟩, ⟨0, some 3⟩, ⟨0, none⟩]⟩ none 1).2.2
          = some (ps,
              ⟨List.count stream_op.increment [.increment, .dereference, .dereference]⟩,
              ea1)) :=
  ⟨lcg_intInRange, by decide, by decide, by decide,
    stream_lazy lcg_intInRange ⟨[⟨0, none⟩, ⟨0, some 3⟩, ⟨0, none⟩]⟩ (by decide) none 1
      [.increment, .dereference, .dereference]⟩

/-- C13 as stated fails: a topology of two occupied locations that is initialized again
with capacity `3` keeps both occupants; only the location added is empty. -/
theorem initialize_keeps_occupants :
    ( well_mixed.initialize ⟨[⟨0, some 3⟩, ⟨0, some 4⟩]⟩ 3)
      = ⟨[⟨0, some 3⟩, ⟨0, some 4⟩, ⟨0, none⟩]⟩ := by
  decide

/-- C13, amended: `initialize` with capacity `C` leaves exactly `C` locations; a location
that existed before keeps its `idx` and its occupant, a location added beyond the
previous length is empty, and so all `C` locations are empty when the topology had no
location before. -/
theorem initialize_resizes (t : well_mixed) (C : Nat) :
    ( well_mixed.initialize t C)._locs.length = C ∧
    (∀ i, i < C → i < t._locs.length → ( well_mixed.initialize t C)._locs[i]? = t._locs[i]?) ∧
    (∀ i, i < C → t._locs.length ≤ i →
      ( well_mixed.initialize t C)._locs[i]? = some ⟨0, none⟩) ∧
    (t._locs = [] → ∀ l ∈ ( well_mixed.initialize t C)._locs, l.p = none) := by
  refine ⟨resize_length _ _, fun i hC hi => resize_old _ _ _ hC hi,
    fun i hC hi => resize_new _ _ _ hC hi, ?_⟩
  intro hnil l hl
  obtain ⟨i, hi⟩ := List.mem_iff_getElem?.mp hl
  have hlt : i < C := by
    have := (List.getElem?_eq_some_iff.mp hi).1
    simpa [ well_mixed.initialize, resize_length] using this
  have hnew : ( well_mixed.initialize t C)._locs[i]? = some ⟨0, none⟩ :=
    resize_new _ _ _ hlt (by simp [hnil])
  rw [hnew] at hi
  simp only [Option.some.injEq] at hi
  rw [← hi]

/-- C13, amended, on a topology of one occupied location initialized with capacity `2`,
and on a topology without locations. -/
theorem initialize_resizes_witness :
    ( well_mixed.initialize ⟨[⟨0, some 3⟩]⟩ 2)._locs[0]?
        = (⟨[⟨0, some 3⟩]⟩ : well_mixed)._locs[0]? ∧
      ( well_mixed.initialize ⟨[⟨0, some 3⟩]⟩ 2)._locs[1]? = some ⟨0, none⟩ ∧
      ∀ l ∈ ( well_mixed.initialize ⟨[]⟩ 2)._locs, l.p = none :=
  ⟨(initialize_resizes ⟨[⟨0, some 3⟩]⟩ 2).2.1 0 (by decide) (by decide),
    (initialize_resizes ⟨[⟨0, some 3⟩]⟩ 2).2.2.1 1 (by decide) (by decide),
    (initialize_resizes ⟨[]⟩ 2).2.2.2 rfl⟩

/-- C14: `neighborhood(p, ea)` hands the topology back as it was, so with the same number
of locations and the same `idx` in each; `replace(l, p)` on a location of the topology
keeps the number of locations and the `idx` of every location, `l` included, and keeps
the occupant of every location other than `l`. -/
theorem topology_frame (E : Engine) (t : well_mixed) (p : individual_ptr_type)
    (ea : E.State) (alive : Nat → Bool) :
    (well_mixed.neighborhood E t p ea).2.1 = t ∧
    ∀ (i : Nat) (t1 : well_mixed) (alive1 : Nat → Bool),
      t.replace_at i p alive = some (t1, alive1) →
        t1._locs.length = t._locs.length ∧
        (∀ j : Nat, (t1._locs[j]?).map (fun l => l.idx) = (t._locs[j]?).map (fun l => l.idx)) ∧
        ∀ j : Nat, j ≠ i → t1._locs[j]? = t._locs[j]? := by
  refine ⟨rfl, ?_⟩
  intro i t1 alive1 h
  obtain ⟨l, hl, ht1⟩ := replace_at_some h
  rw [ht1]
  refine ⟨by simp, ?_, ?_⟩
  · intro j
    by_cases hj : i = j
    · subst hj
      have hi : i < t._locs.length := (List.getElem?_eq_some_iff.mp hl).1
      simp [List.getElem?_set, hi, hl]
    · simp [List.getElem?_set, hj]
  · intro j hj
    have hij : ¬ i = j := fun h => hj h.symm
    simp [List.getElem?_set, hij]

/-- C14 on a topology of two locations with `idx` `0` and `1`: `replace` on the second
location leaves the first location and both `idx` as they were. -/
theorem topology_frame_witness :
    well_mixed.replace_at ⟨[⟨0, some 2⟩, ⟨1, some 3⟩]⟩ 1 (some 5) (fun _ => true)
        = some (⟨[⟨0, some 2⟩, ⟨1, some 5⟩]⟩, Function.update (fun _ => true) 3 false) ∧
      ((⟨[⟨0, some 2⟩, ⟨1, some 5⟩]⟩ : well_mixed)._locs.length
          = (⟨[⟨0, some 2⟩, ⟨1, some 3⟩]⟩ : well_mixed)._locs.length ∧
        (∀ j : Nat, ((⟨[⟨0, some 2⟩, ⟨1, some 5⟩]⟩ : well_mixed)._locs[j]?).map (fun l => l.idx)
          = ((⟨[⟨0, some 2⟩, ⟨1, some 3⟩]⟩ : well_mixed)._locs[j]?).map (fun l => l.idx)) ∧
        ∀ j : Nat, j ≠ 1 → (⟨[⟨0, some 2⟩, ⟨1, some 5⟩]⟩ : well_mixed)._locs[j]?
          = (⟨[⟨0, some 2⟩, ⟨1, some 3⟩]⟩ : well_mixed)._locs[j]?) :=
  ⟨rfl,
    (topology_frame lcg ⟨[⟨0, some 2⟩, ⟨1, some 3⟩]⟩ (some 5) 1 (fun _ => true)).2 1
      ⟨[⟨0, some 2⟩, ⟨1, some 5⟩]⟩ (Function.update (fun _ => true) 3 false) rfl⟩

/-! ## Claims on the instruction dispatcher -/

/-- C15: a dispatcher just constructed holds exactly 11 handlers, numbered in order
`nop_a, nop_b, nop_c, nop_x, mov_head, if_label, h_search, nand, input, output, repro`
from `0` to `10`; and `append` on any dispatcher puts its handler at the index equal to
the previous size of the table and keeps the handler at every smaller index. -/
theorem isa_ctor_numbering :
    isa.ctor._isa = [.inst_nop_a, .inst_nop_b, .inst_nop_c, .inst_nop_x, .inst_mov_head,
      .inst_if_label, .inst_h_search, .inst_nand, .inst_input, .inst_output, .inst_repro] ∧
    isa.ctor._isa.length = 11 ∧
    ∀ (t : isa) (i : Instruction),
      (t.append i)._isa.length = t._isa.length + 1 ∧
      (t.append i)._isa[t._isa.length]? = some i ∧
      ∀ k : Nat, k < t._isa.length → (t.append i)._isa[k]? = t._isa[k]? := by
  refine ⟨rfl, rfl, ?_⟩
  intro t i
  refine ⟨by simp [isa.append], by simp [isa.append], ?_⟩
  intro k hk
  simp [isa.append, List.getElem?_append_left hk]

/-- C15 for an `append` on the table `nop_a, nand`: `repro` goes to index `2`, and index
`1` still holds `nand`. -/
theorem isa_ctor_numbering_witness :
    ((⟨[.inst_nop_a, .inst_nand]⟩ : isa).append .inst_repro)._isa[2]? = some .inst_repro ∧
      ((⟨[.inst_nop_a, .inst_nand]⟩ : isa).append .inst_repro)._isa[1]?
        = (⟨[.inst_nop_a, .inst_nand]⟩ : isa)._isa[1]? :=
  ⟨(isa_ctor_numbering.2.2 ⟨[.inst_nop_a, .inst_nand]⟩ .inst_repro).2.1,
    (isa_ctor_numbering.2.2 ⟨[.inst_nop_a, .inst_nand]⟩ .inst_repro).2.2 1 (by decide)⟩

/-- C16: on a dispatcher just constructed `is_nop(i)` returns `true` for every opcode `i`
from `0` to `3` and `false` for every opcode `i` from `4` to `10`. -/
theorem isa_ctor_is_nop :
    (∀ i : Nat, i ≤ 3 → isa.ctor.is_nop i = .returns true) ∧
    (∀ i : Nat, 4 ≤ i → i ≤ 10 → isa.ctor.is_nop i = .returns false) := by
  constructor
  · intro i hi
    interval_cases i <;> rfl
  · intro i h4 h10
    interval_cases i <;> rfl

/-- C16 at the opcodes `3` and `4`, the last modifier and the first instruction that is
none. -/
theorem isa_ctor_is_nop_witness :
    isa.ctor.is_nop 3 = .returns true ∧ isa.ctor.is_nop 4 = .returns false :=
  ⟨isa_ctor_is_nop.1 3 (by decide), isa_ctor_is_nop.2 4 (by decide) (by decide)⟩

/-- C17 as stated fails: on a dispatcher just constructed, `operator()` with the opcode
`11` indexes the table beyond its end; no out-of-range error is reported. -/
theorem isa_call_unchecked :
    isa.call (fun (_ : Instruction) (hw : Unit) (_ : individual_ptr_type) (al : Unit) =>
        (true, hw, al)) isa.ctor 11 () none () = .undefined ∧
    isa.call (fun (_ : Instruction) (hw : Unit) (_ : individual_ptr_type) (al : Unit) =>
        (true, hw, al)) isa.ctor 11 () none () ≠ .out_of_range := by
  decide

/-- C17, amended: for a dispatcher whose table has `T` handlers, `operator()` with an
opcode `inst < T` invokes the handler at index `inst` and returns exactly what that
handler returns; with an opcode `inst ≥ T` the index is not checked: the call is an
undefined indexing of the table, not an out-of-range error. -/
theorem isa_call_dispatch {HW AL : Type}
    (handler : Instruction → HW → individual_ptr_type → AL → Bool × HW × AL)
    (t : isa) (inst : Nat) (hw : HW) (p : individual_ptr_type) (al : AL) :
    (inst < t._isa.length →
      ∃ h, t._isa[inst]? = some h ∧ isa.call handler t inst hw p al = .returns (handler h hw p al)) ∧
    (t._isa.length ≤ inst → isa.call handler t inst hw p al = .undefined) := by
  constructor
  · intro hlt
    exact ⟨t._isa[inst], List.getElem?_eq_getElem hlt,
      by simp [isa.call, List.getElem?_eq_getElem hlt]⟩
  · intro hge
    simp [isa.call, List.getElem?_eq_none hge]

/-- C17, amended, on a dispatcher just constructed whose handlers return whether they are
modifiers: the opcode `7` returns what `nand` returns, the opcode `11` is undefined. -/
theorem isa_call_dispatch_witness :
    (∃ h, isa.ctor._isa[7]? = some h ∧
      isa.call (fun (i : Instruction) (hw : Unit) (_ : individual_ptr_type) (al : Unit) =>
          (i.is_nop, hw, al)) isa.ctor 7 () none ()
        = .returns ((fun (i : Instruction) (hw : Unit) (_ : individual_ptr_type) (al : Unit) =>
          (i.is_nop, hw, al)) h () none ())) ∧
      isa.call (fun (i : Instruction) (hw : Unit) (_ : individual_ptr_type) (al : Unit) =>
          (i.is_nop, hw, al)) isa.ctor 11 () none () = .undefined :=
  ⟨(isa_call_dispatch _ isa.ctor 7 () none ()).1 (by decide),
    (isa_call_dispatch _ isa.ctor 11 () none ()).2 (by decide)⟩

/-! ## Claims on probabilities, oversized samples and rounding -/

/-- C18 as stated fails: on an object built by `rng()`, `p` called with a NaN trips its
assertion, although for a NaN neither `prob < 0` nor `prob > 1` holds: both conjuncts of
the asserted `(prob >= 0.0) && (prob <= 1.0)` are false on a NaN. -/
theorem p_nan_trips :
    (rng.ctor lcg 7).p double.nan = none ∧
      double.lt double.nan (double.val 0) = false ∧
      double.gt double.nan (double.val 1) = false ∧
      ¬ ((rng.ctor lcg 7).p double.nan = none ↔
        double.lt double.nan (double.val 0) = true ∨
          double.gt double.nan (double.val 1) = true) := by
  have h : (rng.ctor lcg 7).p double.nan = none := by
    simp [rng.p, double.ge, double.le]
  refine ⟨h, rfl, rfl, ?_⟩
  intro hiff
  have hor := hiff.mp h
  simp [double.lt, double.gt] at hor

/-- C18, amended: on an object in use, `p(prob)` trips its assertion exactly when
`0 ≤ prob ≤ 1` does not hold, that is when `prob < 0`, `prob > 1` or `prob` is a NaN; for
`0 ≤ prob ≤ 1` it takes one draw `u` of the cached generator over `[0, 1)` and returns
whether `u < prob`; on a number `x` this is the statement with the order of the numbers;
so `p(0)` returns `false` and `p(1)` returns `true`, given that a draw of the uniform
real distribution stays in its range. -/
theorem p_contract (hR : E.RealInRange) (r : rng E) (hr : Reachable r) (prob : double) :
    (r.p prob = none ↔ ¬ (prob.ge (.val 0) = true ∧ prob.le (.val 1) = true)) ∧
    (r.p prob = none ↔
      prob.lt (.val 0) = true ∨ prob.gt (.val 1) = true ∨ prob = .nan) ∧
    (prob.ge (.val 0) = true → prob.le (.val 1) = true →
      r.p prob = some ((double.val (E.real_dist 0 1 r._eng).1).lt prob,
        { r with _eng := (E.real_dist 0 1 r._eng).2 })) ∧
    (∀ (x : ℚ), (r.p (.val x) = none ↔ x < 0 ∨ 1 < x) ∧
      (0 ≤ x → x ≤ 1 →
        r.p (.val x) = some (decide ((E.real_dist 0 1 r._eng).1 < x),
          { r with _eng := (E.real_dist 0 1 r._eng).2 }))) ∧
    (r.p (.val 0)).map Prod.fst = some false ∧
    (r.p (.val 1)).map Prod.fst = some true := by
  have hp := (reachable_caches hr).1
  have hu := hR 0 1 r._eng (by norm_num)
  have hnone : r.p prob = none ↔ (prob.ge (.val 0) && prob.le (.val 1)) = false := by
    rw [p_eq r hp prob]
    cases hc : (prob.ge (.val 0) && prob.le (.val 1)) <;> simp
  refine ⟨?_, ?_, ?_, ?_, ?_, ?_⟩
  · rw [hnone]
    cases h0 : prob.ge (.val 0) <;> cases h1 : prob.le (.val 1) <;> simp
  · rw [hnone]
    exact p_assert_iff prob
  · intro h0 h1
    rw [p_eq r hp prob]
    simp [h0, h1]
  · intro x
    constructor
    · rw [p_eq_val r hp x]
      constructor
      · intro h
        split_ifs at h with hc
        by_contra hcon
        push_neg at hcon
        exact hc hcon
      · intro h
        have hc : ¬ (0 ≤ x ∧ x ≤ 1) := by
          rintro ⟨h0, h1⟩
          rcases h with h | h
          · exact absurd h0 (not_le.mpr h)
          · exact absurd h1 (not_le.mpr h)
        simp [hc]
    · intro h0 h1
      rw [p_eq_val r hp x, if_pos ⟨h0, h1⟩]
  · rw [p_eq_val r hp 0]
    simp [not_lt.mpr hu.1]
  · rw [p_eq_val r hp 1]
    simp [hu.2]

/-- C18, amended, for `p(1/2)`, `p(3/2)`, `p(+inf)`, `p(NaN)`, `p(0)` and `p(1)` on an object built
by `rng()` on the congruential engine. -/
theorem p_contract_witness :
    lcg.RealInRange ∧ Reachable (rng.ctor lcg 7) ∧
      (rng.ctor lcg 7).p (.val (1 / 2))
        = some (decide ((lcg.real_dist 0 1 (rng.ctor lcg 7)._eng).1 < 1 / 2),
          { rng.ctor lcg 7 with _eng := (lcg.real_dist 0 1 (rng.ctor lcg 7)._eng).2 }) ∧
      ((rng.ctor lcg 7).p (.val (3 / 2)) = none ↔ (3 / 2 : ℚ) < 0 ∨ (1 : ℚ) < 3 / 2) ∧
      ((rng.ctor lcg 7).p .pos_inf = none ↔
        double.pos_inf.lt (.val 0) = true ∨ double.pos_inf.gt (.val 1) = true ∨
          double.pos_inf = .nan) ∧
      ((rng.ctor lcg 7).p .nan = none ↔
        ¬ (double.nan.ge (.val 0) = true ∧ double.nan.le (.val 1) = true)) ∧
      ((rng.ctor lcg 7).p (.val 0)).map Prod.fst = some false ∧
      ((rng.ctor lcg 7).p (.val 1)).map Prod.fst = some true :=
  ⟨lcg_realInRange, Reachable.ctor 7,
    ((p_contract lcg_realInRange (rng.ctor lcg 7) (Reachable.ctor 7) (.val 0)).2.2.2.1
      (1 / 2)).2 (by norm_num) (by norm_num),
    ((p_contract lcg_realInRange (rng.ctor lcg 7) (Reachable.ctor 7) (.val 0)).2.2.2.1
      (3 / 2)).1,
    (p_contract lcg_realInRange (rng.ctor lcg 7) (Reachable.ctor 7) .pos_inf).2.1,
    (p_contract lcg_realInRange (rng.ctor lcg 7) (Reachable.ctor 7) .nan).1,
    (p_contract lcg_realInRange (rng.ctor lcg 7) (Reachable.ctor 7) (.val 0)).2.2.2.2.1,
    (p_contract lcg_realInRange (rng.ctor lcg 7) (Reachable.ctor 7) (.val 0)).2.2.2.2.2⟩

/-- C19: for a range of `L` elements and `n > L`, `sample_without_replacement` does not
return: after at most `L` draws the vector of positions is empty and the generator over
`[0, 0)` cannot be built.  The call returns exactly when `n ≤ L`. -/
theorem sample_without_replacement_oversized (hE : E.IntInRange) {β : Type} (xs : List β)
    (n : Nat) (s : E.State) :
    (xs.length < n → sample_without_replacement E xs n s = none) ∧
    ((∃ r, sample_without_replacement E xs n s = some r) ↔ n ≤ xs.length) := by
  have hnone : xs.length < n → sample_without_replacement E xs n s = none := fun h =>
    sample_without_replacement_loop_none xs n (algorithm.iota xs.length) s
      (by simpa [algorithm.iota, iota] using h)
  refine ⟨hnone, ?_, ?_⟩
  · rintro ⟨r, hr⟩
    by_contra hlt
    rw [hnone (not_le.mp hlt)] at hr
    exact Option.noConfusion hr
  · intro hn
    have hrange : ∀ x ∈ algorithm.iota xs.length, x < xs.length := by
      intro x hx
      rw [algorithm.iota, iota_zero] at hx
      exact List.mem_range.mp hx
    obtain ⟨out, ps, s1, hrun, -⟩ :=
      sample_without_replacement_loop_spec hE xs n (algorithm.iota xs.length) s
        (by simp [algorithm.iota, iota, hn]) hrange
    exact ⟨(out, s1), hrun⟩

/-- C19 for four out of three elements, and for three out of three, on the congruential
engine in state `1`. -/
theorem sample_without_replacement_oversized_witness :
    lcg.IntInRange ∧ [10, 20, 30].length < 4 ∧
      sample_without_replacement lcg [10, 20, 30] 4 1 = none ∧
      ∃ r, sample_without_replacement lcg [10, 20, 30] 3 1 = some r :=
  ⟨lcg_intInRange, by decide,
    (sample_without_replacement_oversized lcg_intInRange [10, 20, 30] 4 1).1 (by decide),
    (sample_without_replacement_oversized lcg_intInRange [10, 20, 30] 3 1).2.2 (by decide)⟩

/-- C20 fails on the code: on the congruential engine in state `2` the real draw of
`normal_real(0, 1)` is `-1`, and `normal_int(0, 1)` returns `0`, the conversion of `-1/2`
to `int`, which is at distance `1` from the draw. -/
theorem normal_int_truncates :
    normal_real lcg 0 1 2 = some (-1, 96542) ∧ normal_int lcg 0 1 2 = some (0, 96542) := by
  constructor
  · simp [normal_real, lcg_next]
    norm_num
  · simp [normal_int, normal_real, lcg_next, to_int]
    norm_num

/-! ## Claims on the full-range draw, the nonzero real draw and the incoming organism -/

/-- C21 as stated fails: on no engine whose draws stay in their range does
`uniform_integer()` return `numeric_limits<int>::max()`. -/
theorem uniform_integer0_never_max :
    ¬ ∃ E : Engine, E.IntInRange ∧ ∃ s s1, uniform_integer0 E s = some (INT_MAX, s1) := by
  rintro ⟨E, hE, s, s1, h⟩
  have := (uniform_integer0_le hE h).2
  omega

/-- C21, amended: `uniform_integer()` returns one draw of the closed-range distribution
over `[numeric_limits<int>::min(), numeric_limits<int>::max() - 1]`; so its result `r`
has `min() ≤ r ≤ max() - 1`, and `max()` is never returned. -/
theorem uniform_integer0_range (hE : E.IntInRange) (s : E.State) :
    uniform_integer0 E s = some (E.int_dist INT_MIN (INT_MAX - 1) s) ∧
    ∃ r s1, uniform_integer0 E s = some (r, s1) ∧ INT_MIN ≤ r ∧ r ≤ INT_MAX - 1 ∧
      r ≠ INT_MAX := by
  refine ⟨uniform_integer0_eq s, (E.int_dist INT_MIN (INT_MAX - 1) s).1,
    (E.int_dist INT_MIN (INT_MAX - 1) s).2, uniform_integer0_eq s, ?_⟩
  obtain ⟨h1, h2⟩ := uniform_integer0_le hE (uniform_integer0_eq s)
  refine ⟨h1, h2, fun h => ?_⟩
  rw [h] at h2
  omega

/-- C21, amended, on the congruential engine in state `42`. -/
theorem uniform_integer0_range_witness :
    lcg.IntInRange ∧ uniform_integer0 lcg 42 = some (-2145456266, 2027382) ∧
      (uniform_integer0 lcg 42 = some (lcg.int_dist INT_MIN (INT_MAX - 1) 42) ∧
      ∃ r s1, uniform_integer0 lcg 42 = some (r, s1) ∧ INT_MIN ≤ r ∧ r ≤ INT_MAX - 1 ∧
        r ≠ INT_MAX) :=
  ⟨lcg_intInRange, by decide, uniform_integer0_range lcg_intInRange 42⟩

/-- C22: a value that `uniform_real_nz(min, max)` returns is not zero; and when the first
draw of `uniform_real(min, max)` is not zero, `uniform_real_nz` returns that value and
leaves the engine as that one draw left it. -/
theorem uniform_real_nz_nonzero (fuel : Nat) (min max : ℚ) (s : E.State) :
    (∀ r s1, uniform_real_nz E fuel min max s = some (r, s1) → r ≠ 0) ∧
    (∀ r s1, uniform_real E min max s = some (r, s1) → r ≠ 0 →
      uniform_real_nz E fuel min max s = some (r, s1)) :=
  ⟨fun _ _ h => (uniform_real_nz_spec min max (fun _ => True) (fun _ _ _ _ => trivial) h).1,
    fun _ _ h hr => uniform_real_nz_first fuel min max h hr⟩

/-- C22 on the congruential engine: in state `1899818559` the first draw over
`[-1, 2147483646)` is `0` and the second, which is returned, is `48270`; in state `1`
the first draw over `[0, 1)` is not zero and is returned. -/
theorem uniform_real_nz_nonzero_witness :
    uniform_real lcg (-1) 2147483646 1899818559 = some (0, 1) ∧
      uniform_real_nz lcg 1 (-1) 2147483646 1899818559 = some (48270, 48271) ∧
      (48270 : ℚ) ≠ 0 ∧
      uniform_real lcg 0 1 1 = some (48271 / 2147483647, 48271) ∧
      uniform_real_nz lcg 1 0 1 1 = some (48271 / 2147483647, 48271) :=
  have h1 : uniform_real_nz lcg 1 (-1) 2147483646 1899818559 = some (48270, 48271) := by
    simp [uniform_real_nz, uniform_real_nz_loop, uniform_real, uniform_real_rng,
      uniform_real_dist, lcg_next]
    norm_num
  have h2 : uniform_real lcg 0 1 1 = some (48271 / 2147483647, 48271) := by
    simp [uniform_real, uniform_real_rng, uniform_real_dist, lcg_next]
  ⟨by
      simp [uniform_real, uniform_real_rng, uniform_real_dist, lcg_next]
      norm_num,
    h1, (uniform_real_nz_nonzero 1 (-1) 2147483646 1899818559).1 48270 48271 h1, h2,
    (uniform_real_nz_nonzero 1 0 1 1).2 (48271 / 2147483647) 48271 h2 (by norm_num)⟩

/-- C23 fails on the code: on the congruential engine in state `0`, which an object holds
after `load` of the text `0`, the draw of `uniform_real(1, 2)` is the lower bound `1`,
and `uniform_real_nz(1, 2)` returns it. -/
theorem uniform_real_nz_returns_min :
    ((rng.ctor lcg 7).load "0")._eng = 0 ∧ uniform_real_nz lcg 0 1 2 0 = some (1, 0) := by
  constructor
  · decide
  · simp [uniform_real_nz, uniform_real_nz_loop, uniform_real, uniform_real_rng,
      uniform_real_dist, lcg_next]

/-- C25 as stated fails: `replace(l, p)` with `p` already the occupant of `l` marks `p`
not-alive and leaves it bound to `l`. -/
theorem replace_marks_incoming :
    (well_mixed.replace ⟨1, some 3⟩ (some 3) (fun _ => true)).1.p = some 3 ∧
      (well_mixed.replace ⟨1, some 3⟩ (some 3) (fun _ => true)).2 3 = false := by
  decide

/-- C25, amended: for an organism `p` that is not already the occupant of `l`,
`replace(l, p)` leaves the alive flag of `p` as it was before the call, so the organism
bound to `l` after the call is not the one that this call marked not-alive. -/
theorem replace_incoming_alive (l : location_type) (q : Nat) (alive : Nat → Bool)
    (hq : l.p ≠ some q) :
    (well_mixed.replace l (some q) alive).2 q = alive q ∧
    (well_mixed.replace l (some q) alive).1.p = some q := by
  refine ⟨?_, rfl⟩
  cases hl : l.p with
  | none => simp [well_mixed.replace, hl]
  | some q1 =>
    have hne : q ≠ q1 := by
      intro h
      rw [hl, h] at hq
      exact hq rfl
    simp [well_mixed.replace, hl, Function.update, hne]

/-- C25, amended, on a location occupied by individual `3` that individual `5` takes:
`5` is alive after the call as it was before. -/
theorem replace_incoming_alive_witness :
    (⟨1, some 3⟩ : location_type).p ≠ some 5 ∧
      (well_mixed.replace ⟨1, some 3⟩ (some 5) (fun _ => true)).2 5 = true ∧
      (well_mixed.replace ⟨1, some 3⟩ (some 5) (fun _ => true)).1.p = some 5 :=
  ⟨by decide, replace_incoming_alive ⟨1, some 3⟩ 5 (fun _ => true) (by decide)⟩

end ea

/-! ## The calls that `layout_ctrnn` makes on the recording network -/

namespace nn

theorem add_neurons_logging (c : neuron_kind) :
    ∀ (n : Nat) (neurons : List Nat) (nn : network_log),
      add_neurons logging
          (fun nn => (nn.neurons.length, { nn with neurons := nn.neurons ++ [c] })) n neurons nn
        = (neurons ++ List.range' nn.neurons.length n,
            { nn with neurons := nn.neurons ++ List.replicate n c })
  | 0, neurons, nn => by simp [add_neurons]
  | n + 1, neurons, nn => by
    rw [add_neurons, add_neurons_logging c n]
    simp [List.range'_succ, List.replicate_succ, Nat.add_comm]

theorem range'_getElem? (k n i : Nat) (hi : i < n) : (List.range' k n)[i]? = some (k + i) := by
  rw [List.getElem?_eq_getElem (by simpa using hi)]
  simp

theorem link_from_logging (k n i : Nat) (hi : i < n) :
    ∀ (js : List Nat) (nn : network_log), (∀ j ∈ js, j < n) →
      js.foldl (fun nn j => link_pair logging (List.range' k n) i j nn) nn
        = { nn with links := nn.links ++ (js.filter (fun j => i ≠ j)).map (fun j => (k + i, k + j)) }
  | [], nn, _ => by simp
  | j :: js, nn, h => by
    have hj : j < n := h j (List.mem_cons_self _ _)
    have hjs : ∀ x ∈ js, x < n := fun x hx => h x (List.mem_cons_of_mem _ hx)
    rw [List.foldl_cons, link_from_logging k n i hi js _ hjs]
    by_cases hij : i = j
    · simp [link_pair, hij]
    · simp [link_pair, hij, range'_getElem? k n i hi, range'_getElem? k n j hj,
        List.filter_cons]

theorem link_all_logging (k n : Nat) :
    ∀ (is : List Nat) (nn : network_log), (∀ i ∈ is, i < n) →
      is.foldl (fun nn i => link_from logging (List.range' k n) i nn) nn
        = { nn with links := nn.links ++ is.flatMap (row k n) }
  | [], nn, _ => by simp
  | i :: is, nn, h => by
    have hi : i < n := h i (List.mem_cons_self _ _)
    have his : ∀ x ∈ is, x < n := fun x hx => h x (List.mem_cons_of_mem _ hx)
    rw [List.foldl_cons, link_all_logging k n is _ his]
    have hrow : link_from logging (List.range' k n) i nn
        = { nn with links := nn.links ++ row k n i } := by
      unfold link_from row
      rw [List.length_range']
      exact link_from_logging k n i hi (List.range n) nn (fun j hj => List.mem_range.mp hj)
    rw [hrow]
    simp [List.flatMap_cons, List.append_assoc]

theorem mem_row {k n i a b : Nat} :
    (a, b) ∈ row k n i ↔ a = k + i ∧ ∃ j, j < n ∧ i ≠ j ∧ b = k + j := by
  simp only [row, List.mem_map, List.mem_filter, List.mem_range, Prod.mk.injEq,
    decide_eq_true_eq]
  constructor
  · rintro ⟨j, ⟨hj, hij⟩, ha, hb⟩
    exact ⟨ha.symm, j, hj, hij, hb.symm⟩
  · rintro ⟨ha, j, hj, hij, hb⟩
    exact ⟨j, ⟨hj, hij⟩, ha.symm, hb.symm⟩

theorem row_nodup (k n i : Nat) : (row k n i).Nodup := by
  unfold row
  refine List.Nodup.map ?_ ((List.nodup_range n).filter _)
  intro a b h
  simp only [Prod.mk.injEq, true_and] at h
  omega

theorem row_length (k n i : Nat) (hi : i < n) : (row k n i).length = n - 1 := by
  unfold row
  rw [List.length_map]
  have h1 : (List.range n).filter (fun j => decide (i ≠ j)) = (List.range n).erase i := by
    rw [(List.nodup_range n).erase_eq_filter]
    apply List.filter_congr
    intro x _
    by_cases hx : i = x
    · simp [hx]
    · have hx1 : ¬ x = i := fun h => hx h.symm
      simp [hx, hx1]
  rw [h1, List.length_erase_of_mem (List.mem_range.mpr hi), List.length_range]

theorem pairs_nodup (k n : Nat) : ((List.range n).flatMap (row k n)).Nodup := by
  rw [List.nodup_flatMap]
  refine ⟨fun i _ => row_nodup k n i, ?_⟩
  refine (List.nodup_range n).imp ?_
  intro i j hij
  intro x hx hy
  obtain ⟨a, b⟩ := x
  have h1 := (mem_row.mp hx).1
  have h2 := (mem_row.mp hy).1
  omega

theorem pairs_length (k n : Nat) : ((List.range n).flatMap (row k n)).length = n * (n - 1) := by
  have h : ∀ (is : List Nat), (∀ i ∈ is, i < n) →
      (is.flatMap (row k n)).length = is.length * (n - 1) := by
    intro is
    induction is with
    | nil => simp
    | cons i is ih =>
      intro h
      rw [List.flatMap_cons, List.length_append, row_length k n i (h i (List.mem_cons_self _ _)),
        ih (fun x hx => h x (List.mem_cons_of_mem _ hx)), List.length_cons]
      ring
  rw [h (List.range n) (fun i hi => List.mem_range.mp hi), List.length_range]

theorem mem_pairs {k n a b : Nat} :
    (a, b) ∈ (List.range n).flatMap (row k n)
      ↔ k ≤ a ∧ a < k + n ∧ k ≤ b ∧ b < k + n ∧ a ≠ b := by
  simp only [List.mem_flatMap, List.mem_range, mem_row]
  constructor
  · rintro ⟨i, hi, ha, j, hj, hij, hb⟩
    omega
  · rintro ⟨h1, h2, h3, h4, h5⟩
    exact ⟨a - k, by omega, by omega, b - k, by omega, by omega, by omega⟩

theorem layout_ctrnn_logging (nn : network_log) (nin nout nhid : Nat) :
    layout_ctrnn logging nn nin nout nhid
      = { neurons := nn.neurons ++ List.replicate nin .input ++ List.replicate nhid .hidden
            ++ List.replicate nout .output,
          links := nn.links
            ++ (List.range (nin + nhid + nout)).flatMap
                (row nn.neurons.length (nin + nhid + nout)) } := by
  have e1 : add_neurons logging logging.add_input_neuron nin [] nn
      = ([] ++ List.range' nn.neurons.length nin,
          { nn with neurons := nn.neurons ++ List.replicate nin .input }) :=
    add_neurons_logging .input nin [] nn
  have e2 : ∀ (neurons : List Nat) (nn : network_log),
      add_neurons logging logging.add_hidden_neuron nhid neurons nn
        = (neurons ++ List.range' nn.neurons.length nhid,
            { nn with neurons := nn.neurons ++ List.replicate nhid .hidden }) :=
    add_neurons_logging .hidden nhid
  have e3 : ∀ (neurons : List Nat) (nn : network_log),
      add_neurons logging logging.add_output_neuron nout neurons nn
        = (neurons ++ List.range' nn.neurons.length nout,
            { nn with neurons := nn.neurons ++ List.replicate nout .output }) :=
    add_neurons_logging .output nout
  have hn : [] ++ List.range' nn.neurons.length nin
      ++ List.range' (nn.neurons ++ List.replicate nin neuron_kind.input).length nhid
      ++ List.range' (nn.neurons ++ List.replicate nin neuron_kind.input
          ++ List.replicate nhid neuron_kind.hidden).length nout
      = List.range' nn.neurons.length (nin + nhid + nout) := by
    simp only [List.nil_append, List.length_append, List.length_replicate]
    have hk : nn.neurons.length + nin + nhid = nn.neurons.length + (nhid + nin) := by omega
    rw [List.range'_append_1, hk, List.range'_append_1]
    congr 1
    omega
  unfold layout_ctrnn
  simp only [e1, e2, e3, hn]
  unfold link_all
  rw [List.length_range', link_all_logging nn.neurons.length (nin + nhid + nout)
    (List.range (nin + nhid + nout)) _ (fun i hi => List.mem_range.mp hi)]

/-! ## Claims on the layout of a neural network -/

/-- C24: on the recording network, `layout_ctrnn(nn, nin, nout, nhid)` adds exactly
`nin + nhid + nout` neurons, `nin` input, then `nhid` hidden, then `nout` output ones, and
the calls of `link` it makes are, each exactly once, the ordered pairs `(a, b)` of
different added neurons: no call has `a = b`, and there are `n (n - 1)` calls for `n`
neurons. -/
theorem layout_ctrnn_complete (nn : network_log) (nin nout nhid : Nat) :
    (layout_ctrnn logging nn nin nout nhid).neurons
      = nn.neurons ++ List.replicate nin .input ++ List.replicate nhid .hidden
          ++ List.replicate nout .output ∧
    ∃ new : List (Nat × Nat),
      (layout_ctrnn logging nn nin nout nhid).links = nn.links ++ new ∧ new.Nodup ∧
      new.length = (nin + nhid + nout) * (nin + nhid + nout - 1) ∧
      ∀ a b : Nat, (a, b) ∈ new ↔
        nn.neurons.length ≤ a ∧ a < nn.neurons.length + (nin + nhid + nout) ∧
        nn.neurons.length ≤ b ∧ b < nn.neurons.length + (nin + nhid + nout) ∧ a ≠ b := by
  rw [layout_ctrnn_logging]
  exact ⟨rfl, _, rfl, pairs_nodup _ _, pairs_length _ _, fun a b => mem_pairs⟩

/-- The layout of one input, one hidden and one output neuron on a network that holds
one neuron and one link already: three neurons and six links are added. -/
theorem layout_ctrnn_example :
    layout_ctrnn logging ⟨[.input], [(0, 0)]⟩ 1 1 1
      = ⟨[.input, .input, .hidden, .output],
          [(0, 0), (1, 2), (1, 3), (2, 1), (2, 3), (3, 1), (3, 2)]⟩ := by
  decide

end nn

/-! ## The ROC table of the OCR game -/

namespace games

theorem bump_row (roc : Nat → field → Int) (j : Nat) (f : field) (j1 : Nat) (f1 : field) :
    bump roc j f j1 f1 = if j1 = j ∧ f1 = f then roc j1 f1 + 1 else roc j1 f1 := rfl

/-- One pass of the body of the loop over the labels: in row `j` one of `P`, `N` and the
matching one of `TP`, `FN`, `FP`, `TN` go up by one, the other rows stay. -/
theorem track_spec (roc : Nat → field → Int) (j label : Nat) (is_on : Int) (j1 : Nat) :
    track roc j label is_on j1 .TP + track roc j label is_on j1 .FN
        - track roc j label is_on j1 .P = roc j1 .TP + roc j1 .FN - roc j1 .P ∧
    track roc j label is_on j1 .FP + track roc j label is_on j1 .TN
        - track roc j label is_on j1 .N = roc j1 .FP + roc j1 .TN - roc j1 .N ∧
    track roc j label is_on j1 .P + track roc j label is_on j1 .N
      = roc j1 .P + roc j1 .N + (if j1 = j then 1 else 0) := by
  by_cases hl : label = j <;> by_cases ho : is_on ≠ 0 <;> by_cases hj : j1 = j <;>
    simp [track, hl, ho, hj, bump_row] <;> omega

theorem roc_loop_spec (C : Collaborators) (width : Nat) (outputs : List Int) (label : Nat) :
    ∀ (fuel j k : Nat) (roc roc1 : Nat → field → Int),
      roc_loop C width outputs label fuel j k roc = some roc1 → k = j * width →
      ∀ j1 : Nat,
        roc1 j1 .TP + roc1 j1 .FN - roc1 j1 .P = roc j1 .TP + roc j1 .FN - roc j1 .P ∧
        roc1 j1 .FP + roc1 j1 .TN - roc1 j1 .N = roc j1 .FP + roc j1 .TN - roc j1 .N ∧
        roc1 j1 .P + roc1 j1 .N
          = roc j1 .P + roc j1 .N + (if j ≤ j1 ∧ j1 * width < outputs.length then 1 else 0)
  | 0, j, k, roc, roc1, h, hk, j1 => by
    unfold roc_loop at h
    split_ifs at h with hlt
    simp only [Option.some.injEq] at h
    subst h
    have hno : ¬ (j ≤ j1 ∧ j1 * width < outputs.length) := by
      rintro ⟨h1, h2⟩
      have := Nat.mul_le_mul_right width h1
      omega
    simp [hno]
  | fuel + 1, j, k, roc, roc1, h, hk, j1 => by
    unfold roc_loop at h
    split_ifs at h with hlt hj
    · obtain ⟨s1, s2, s3⟩ :=
        track_spec roc j label (C.vxor ((outputs.drop k).take width)) j1
      obtain ⟨r1, r2, r3⟩ :=
        roc_loop_spec C width outputs label fuel (j + 1) (k + width) _ roc1 h
          (by rw [hk, Nat.add_mul, Nat.one_mul]) j1
      refine ⟨r1.trans s1, r2.trans s2, ?_⟩
      rw [r3, s3]
      by_cases hjj : j1 = j
      · subst hjj
        have h1 : ¬ (j1 + 1 ≤ j1 ∧ j1 * width < outputs.length) := by omega
        have h2 : j1 ≤ j1 ∧ j1 * width < outputs.length := ⟨le_refl _, by omega⟩
        simp [h1, h2]
      · have hiff : (j + 1 ≤ j1 ∧ j1 * width < outputs.length)
            ↔ (j ≤ j1 ∧ j1 * width < outputs.length) := by
          constructor
          · rintro ⟨a, b⟩
            exact ⟨by omega, b⟩
          · rintro ⟨a, b⟩
            exact ⟨by omega, b⟩
        simp [hjj, hiff]
    · simp only [Option.some.injEq] at h
      subst h
      have hno : ¬ (j ≤ j1 ∧ j1 * width < outputs.length) := by
        rintro ⟨h1, h2⟩
        have := Nat.mul_le_mul_right width h1
        omega
      simp [hno]

theorem roc_loop_returns (C : Collaborators) (width : Nat) (hw : 1 ≤ width)
    (outputs : List Int) (hlen : outputs.length = 10 * width) (label : Nat) :
    ∀ (fuel j k : Nat) (roc : Nat → field → Int), k = j * width → 10 ≤ fuel + j →
      ∃ roc1, roc_loop C width outputs label fuel j k roc = some roc1
  | 0, j, k, roc, hk, hf => by
    have hge : 10 * width ≤ j * width := Nat.mul_le_mul_right width (by omega)
    have : ¬ k < outputs.length := by omega
    exact ⟨roc, by simp [roc_loop, this]⟩
  | fuel + 1, j, k, roc, hk, hf => by
    unfold roc_loop
    split_ifs with hlt hj
    · exfalso
      have hge : 10 * width ≤ j * width := Nat.mul_le_mul_right width hj
      omega
    · exact roc_loop_returns C width hw outputs hlen label fuel (j + 1) (k + width) _
        (by rw [hk, Nat.add_mul, Nat.one_mul]) (by omega)
    · exact ⟨roc, rfl⟩

theorem play_loop_spec (C : Collaborators) (g : ocr_game) (hw : 1 ≤ g._width) (updates : Nat) :
    ∀ (idx : List Nat) (roc roc1 : Nat → field → Int) (s s1 : C.State),
      play_loop C g updates idx roc s = some (roc1, s1) →
      ∀ j1 : Nat,
        roc1 j1 .TP + roc1 j1 .FN - roc1 j1 .P = roc j1 .TP + roc j1 .FN - roc j1 .P ∧
        roc1 j1 .FP + roc1 j1 .TN - roc1 j1 .N = roc j1 .FP + roc j1 .TN - roc j1 .N ∧
        (j1 < 10 → roc1 j1 .P + roc1 j1 .N = roc j1 .P + roc j1 .N + idx.length)
  | [], roc, roc1, s, s1, h, j1 => by
    simp only [play_loop, Option.some.injEq, Prod.mk.injEq] at h
    obtain ⟨rfl, -⟩ := h
    simp
  | i :: idx, roc, roc1, s, s1, h, j1 => by
    unfold play_loop at h
    cases hli : g._idb[i]? with
    | none => simp [hli] at h
    | some li =>
      simp only [hli] at h
      split_ifs at h with hassert
      cases hloop : roc_loop C g._width (C.update_n updates li.img s).1 li.label
          (C.update_n updates li.img s).1.length 0 0 roc with
      | none => simp [hloop] at h
      | some roc2 =>
        simp only [hloop] at h
        obtain ⟨a1, a2, a3⟩ := roc_loop_spec C g._width _ li.label _ 0 0 roc roc2 hloop
          (by simp) j1
        obtain ⟨b1, b2, b3⟩ := play_loop_spec C g hw updates idx roc2 roc1 _ s1 h j1
        refine ⟨b1.trans a1, b2.trans a2, fun hj => ?_⟩
        have hin : 0 ≤ j1 ∧ j1 * g._width < (C.update_n updates li.img s).1.length := by
          refine ⟨Nat.zero_le _, ?_⟩
          rw [hassert.1, hassert.2]
          exact Nat.mul_lt_mul_of_lt_of_le hj (le_refl _) (by omega)
        rw [b3 hj, a3, if_pos hin, List.length_cons]
        push_cast
        ring

theorem play_loop_returns (C : Collaborators) (g : ocr_game) (hw : 1 ≤ g._width)
    (hout : g._nout = 10 * g._width) (updates : Nat)
    (hupd : ∀ (inputs : List Int) (s : C.State),
      (C.update_n updates inputs s).1.length = 10 * g._width) :
    ∀ (idx : List Nat) (roc : Nat → field → Int) (s : C.State),
      (∀ i ∈ idx, i < g._idb.length) → ∃ r, play_loop C g updates idx roc s = some r
  | [], roc, s, _ => ⟨(roc, s), rfl⟩
  | i :: idx, roc, s, h => by
    have hi : i < g._idb.length := h i (List.mem_cons_self _ _)
    unfold play_loop
    rw [List.getElem?_eq_getElem hi]
    simp only []
    have hlen := hupd g._idb[i].img s
    rw [if_pos ⟨by rw [hlen, hout], hout⟩]
    obtain ⟨roc2, hloop⟩ := roc_loop_returns C g._width hw _ hlen g._idb[i].label
      (C.update_n updates g._idb[i].img s).1.length 0 0 roc (by simp) (by omega)
    rw [hloop]
    exact play_loop_returns C g hw hout updates hupd idx roc2 _
      (fun x hx => h x (List.mem_cons_of_mem _ hx))

/-- The call `play` returns when the width is positive, the game expects `10 * _width`
outputs, every update of the network yields that many, and the images played exist. -/
theorem play_returns (C : Collaborators) (g : ocr_game) (hw : 1 ≤ g._width)
    (hout : g._nout = 10 * g._width) (game_size updates : Nat)
    (hupd : ∀ (inputs : List Int) (s : C.State),
      (C.update_n updates inputs s).1.length = 10 * g._width)
    (hidx : ∀ k, k < game_size → C.series_generator 0 1 k < g._idb.length) (s : C.State) :
    ∃ r, g.play C game_size updates s = some r := by
  obtain ⟨⟨roc, s1⟩, h⟩ := play_loop_returns C g hw hout updates hupd
    (results.ctor game_size (C.series_generator 0 1)).idx
    (results.ctor game_size (C.series_generator 0 1)).roc s
    (by
      intro i hi
      simp only [results.ctor, List.mem_map, List.mem_range] at hi
      obtain ⟨k, hk, rfl⟩ := hi
      exact hidx k hk)
  exact ⟨({ results.ctor game_size (C.series_generator 0 1) with roc := roc }, s1),
    by simp [ocr_game.play, h]⟩

theorem means_eq (num den : Nat → Int) (hden : ∀ i, i < 10 → 0 ≤ den i) :
    (List.range 10).foldl
        (fun x i => if den i > 0 then x + (num i : ℚ) / (den i : ℚ) else x) 0 / 10
      = mean_of (fun i => if den i = 0 then 0 else (num i : ℚ) / (den i : ℚ)) := by
  have hg : ∀ (l : List Nat) (x : ℚ), (∀ i ∈ l, 0 ≤ den i) →
      l.foldl (fun x i => if den i > 0 then x + (num i : ℚ) / (den i : ℚ) else x) x
        = x + (l.map (fun i => if den i = 0 then 0 else (num i : ℚ) / (den i : ℚ))).sum := by
    intro l
    induction l with
    | nil => intro x _; simp
    | cons i l ih =>
      intro x h
      have hi := h i (List.mem_cons_self _ _)
      rw [List.foldl_cons, ih _ (fun a ha => h a (List.mem_cons_of_mem _ ha)), List.map_cons,
        List.sum_cons]
      by_cases h0 : den i = 0
      · simp [h0]
      · have hpos : den i > 0 := lt_of_le_of_ne hi (Ne.symm h0)
        simp [h0, hpos]
        ring
  rw [mean_of, hg (List.range 10) 0 (fun i hi => hden i (List.mem_range.mp hi)), zero_add]

/-- The part of C27 that holds: on a table whose counters `P` and `N` are not negative,
`mean_tpr` and `mean_tnr` are the means of `tpr(i)` and `tnr(i)`. -/
theorem mean_tpr_tnr (r : results) (hP : ∀ i, i < 10 → 0 ≤ r.roc i .P)
    (hN : ∀ i, i < 10 → 0 ≤ r.roc i .N) :
    r.mean_tpr = mean_of r.tpr ∧ r.mean_tnr = mean_of r.tnr :=
  ⟨means_eq (fun i => r.roc i .TP) (fun i => r.roc i .P) hP,
    means_eq (fun i => r.roc i .TN) (fun i => r.roc i .N) hN⟩

/-! ## Claims on the OCR game -/

/-- C26: with a positive output width, the table of a call of `play` that returns after
playing `game_size` images has, for every label `j` from `0` to `9`, `TP + FN = P`,
`FP + TN = N` and `P + N = game_size`, and all its counters are zero for
`game_size = 0`.  (A call returns only when every update of the network yields
`10 * _width` outputs: `play` asserts it.) -/
theorem play_roc_invariant (C : Collaborators) (g : ocr_game) (hw : 1 ≤ g._width)
    (game_size updates : Nat) (s s1 : C.State) (r : results)
    (h : g.play C game_size updates s = some (r, s1)) :
    r.idx.length = game_size ∧
    (∀ j, j < 10 →
      r.roc j .TP + r.roc j .FN = r.roc j .P ∧ r.roc j .FP + r.roc j .TN = r.roc j .N ∧
      r.roc j .P + r.roc j .N = game_size) ∧
    (game_size = 0 → ∀ j f, r.roc j f = 0) := by
  unfold ocr_game.play at h
  simp only [] at h
  cases hloop : play_loop C g updates (results.ctor game_size (C.series_generator 0 1)).idx
      (results.ctor game_size (C.series_generator 0 1)).roc s with
  | none => simp [hloop] at h
  | some d =>
    obtain ⟨roc, s2⟩ := d
    simp only [hloop, Option.some.injEq, Prod.mk.injEq] at h
    obtain ⟨rfl, -⟩ := h
    have hlen : (results.ctor game_size (C.series_generator 0 1)).idx.length = game_size := by
      simp [results.ctor]
    refine ⟨hlen, ?_, ?_⟩
    · intro j hj
      obtain ⟨a1, a2, a3⟩ := play_loop_spec C g hw updates _ _ roc s s2 hloop j
      have a4 := a3 hj
      rw [hlen] at a4
      simp only [results.ctor] at a1 a2 a4
      dsimp only
      refine ⟨by omega, by omega, by omega⟩
    · intro h0 j f
      subst h0
      simp only [results.ctor, List.range_zero, List.map_nil, play_loop, Option.some.injEq,
        Prod.mk.injEq] at hloop
      rw [← hloop.1]

/-- C26 on the game `demo_game` of width `2` with three images: `play` returns, and its
table has the rows of `demo_table`. -/
theorem play_roc_invariant_witness :
    1 ≤ demo_game._width ∧
      ∃ r s1, ocr_game.play demo demo_game 3 1 () = some (r, s1) ∧
        (∀ j, j < 10 → r.roc j .P = demo_table.roc j .P ∧ r.roc j .N = demo_table.roc j .N ∧
          r.roc j .TP = demo_table.roc j .TP ∧ r.roc j .FP = demo_table.roc j .FP ∧
          r.roc j .TN = demo_table.roc j .TN ∧ r.roc j .FN = demo_table.roc j .FN) ∧
        (r.idx.length = 3 ∧
        (∀ j, j < 10 →
          r.roc j .TP + r.roc j .FN = r.roc j .P ∧ r.roc j .FP + r.roc j .TN = r.roc j .N ∧
          r.roc j .P + r.roc j .N = (3 : Nat)) ∧
        ((3 : Nat) = 0 → ∀ j f, r.roc j f = 0)) :=
  ⟨by decide, _, _, rfl, by decide,
    play_roc_invariant demo demo_game (by decide) 3 1 () _ _ rfl⟩

/-- C27 fails on the code: on the table `demo_table`, which `play` fills for three images,
`mean_fpr()` is `1/10` and the mean of `fpr(i)` is `1/5`, `mean_fnr()` is `1/5` and the
mean of `fnr(i)` is `1/10`: `fpr(i)` divides by `roc[i][P]` where `mean_fpr` divides by
`roc[i][N]`, and `fnr(i)` by `roc[i][N]` where `mean_fnr` divides by `roc[i][P]`. -/
theorem mean_fpr_fnr_differ :
    demo_table.mean_fpr = 1 / 10 ∧ mean_of demo_table.fpr = 1 / 5 ∧
      demo_table.mean_fnr = 1 / 5 ∧ mean_of demo_table.fnr = 1 / 10 := by
  refine ⟨?_, ?_, ?_, ?_⟩
  · simp [results.mean_fpr, demo_table, List.range_succ]
    norm_num
  · simp [mean_of, results.fpr, demo_table, List.range_succ]
    norm_num
  · simp [results.mean_fnr, demo_table, List.range_succ]
    norm_num
  · simp [mean_of, results.fnr, demo_table, List.range_succ]
    norm_num

end games
